import Mathlib

/-!
# Charged particle in a coaxial capacitor: integrator and critical-voltage search

Shallow embedding of `main.go` (package `main`).

Modelling conventions.

* The program is embedded twice.  The first embedding runs it over exact
  rationals (`ℚ`).  The second (names ending in `F`) applies a rounding
  `rnd : ℚ → ℚ` to the result of every arithmetic operation; with `rnd = fl64`,
  rounding to the nearest `float64`, it is the program as it runs, as long as
  no operation overflows or underflows, and with `rnd = id` it is the first
  embedding.  Statements whose truth depends on rounding (iteration counts,
  recorded times, strictness of inequalities) are made in the second.
* Division by zero follows the convention of `ℚ` (`x / 0 = 0`); it can only
  happen in an acceleration whose value the program never uses, or outside the
  valid parameter range.
* The global `num` of type `consts` is passed explicitly.
* `math.Log` is a library function; it is a parameter `log : ℚ → ℚ`.  Where a
  theorem needs it, the only fact assumed is `∀ x, 1 < x → 0 < log x`.
* The two `for` loops of the integrator and the loop of the search may run
  forever, so each loop takes a fuel: the largest number of iterations it may
  perform.  A loop returns `none` exactly when its guard still holds after that
  many iterations.
-/

namespace PhysicsModel

/-- Global parameter record `consts` of `main.go`. -/
structure consts where
  eCharge : ℚ
  eMass : ℚ
  startSpeed : ℚ
  length : ℚ
  innerRadius : ℚ
  outerRadius : ℚ
  startPosition : ℚ
  finishedPosition : ℚ
  dt : ℚ
deriving DecidableEq

/-- Acceleration of the electron at distance `r` from the axis, `main.go` lines 26-29. -/
def CountAccelerationAtDistanceFromAxis (num : consts) (log : ℚ → ℚ) (u r : ℚ) : ℚ :=
  (num.eCharge * u) / (num.eMass * r * log (num.outerRadius / num.innerRadius))

/-- Local variables of the stepping loop shared by `Simulation` and
`SimulationForGraphics`. -/
structure SimState where
  a : ℚ
  speedOnYAxis : ℚ
  time : ℚ
  pos : ℚ
deriving DecidableEq

/-- Initialisation of the locals, `main.go` lines 33-36 (and 78-81). -/
def simInit (num : consts) (log : ℚ → ℚ) (u : ℚ) : SimState :=
  { a := CountAccelerationAtDistanceFromAxis num log u (num.startPosition + num.innerRadius)
    speedOnYAxis := 0
    time := 0
    pos := num.startPosition }

/-- Loop guard `pos > 0 && (time*num.startSpeed) <= num.length`, lines 38 and 83. -/
def simGuard (num : consts) (s : SimState) : Bool :=
  decide (0 < s.pos) && decide (s.time * num.startSpeed ≤ num.length)

/-- One pass through the loop body, lines 39-46 (and 91-98), followed by the
post statement `time += num.dt`. -/
def simBody (num : consts) (log : ℚ → ℚ) (u : ℚ) (s : SimState) : SimState :=
  let pos := s.pos + (-s.speedOnYAxis * num.dt - s.a * num.dt ^ 2 / 2)
  let speedOnYAxis := if 0 < pos then s.speedOnYAxis + s.a * num.dt else 0
  let a := CountAccelerationAtDistanceFromAxis num log u (pos + num.innerRadius)
  { a := a, speedOnYAxis := speedOnYAxis, time := s.time + num.dt, pos := pos }

/-- The `for` loop of `Simulation`, lines 38-47, with at most `fuel` iterations. -/
def simLoop (num : consts) (log : ℚ → ℚ) (u : ℚ) : Nat → SimState → Option SimState
  | 0, s => if simGuard num s then none else some s
  | fuel + 1, s =>
    if simGuard num s then simLoop num log u fuel (simBody num log u s) else some s

/-- Function `Simulation`, lines 32-50: the final position, or `none` when the
loop is still running after `fuel` iterations. -/
def Simulation (num : consts) (log : ℚ → ℚ) (u : ℚ) (fuel : Nat) : Option ℚ :=
  (simLoop num log u fuel (simInit num log u)).map (fun s => s.pos)

/-- One pass through the body of the bisection loop, lines 58-64, for a
simulation `sim` that may fail to return. -/
def findBody (sim : ℚ → Option ℚ) (b : ℚ × ℚ) : Option (ℚ × ℚ) :=
  let mid := (b.1 + b.2) / 2
  match sim mid with
  | none => none
  | some pos => if pos ≤ 0 then some (b.1, mid) else some (mid, b.2)

/-- The loop of `FindMinimumPotentialDifference`, lines 57-66, on the bracket
`b = (leftBoard, rightBoard)`, with at most `fuel` iterations. -/
def findLoop (sim : ℚ → Option ℚ) : Nat → ℚ × ℚ → Option ℚ
  | 0, b => if b.2 - b.1 > 1 / 100000 then none else some b.2
  | fuel + 1, b =>
    if b.2 - b.1 > 1 / 100000 then (findBody sim b).bind (findLoop sim fuel) else some b.2

/-- The bracket `(leftBoard, rightBoard)` held at the loop head after `k`
iterations of the bisection loop; `none` when the loop has stopped before, or a
call of the simulation did not return. -/
def findBracket (sim : ℚ → Option ℚ) : Nat → Option (ℚ × ℚ)
  | 0 => some (0, 1000)
  | k + 1 =>
    (findBracket sim k).bind
      (fun b => if b.2 - b.1 > 1 / 100000 then findBody sim b else none)

/-- The function `Simulation` as the search calls it: the call at voltage `u`
runs with fuel `simFuel u`. -/
def SimulationWith (num : consts) (log : ℚ → ℚ) (simFuel : ℚ → Nat) (u : ℚ) : Option ℚ :=
  Simulation num log u (simFuel u)

/-- Function `FindMinimumPotentialDifference`, lines 54-67, with at most `fuel`
passes through its loop. -/
def FindMinimumPotentialDifference (num : consts) (log : ℚ → ℚ) (simFuel : ℚ → Nat)
    (fuel : Nat) : Option ℚ :=
  findLoop (SimulationWith num log simFuel) fuel (0, 1000)

/-- The five slices returned by `SimulationForGraphics`, in the order of the
`return` statement on line 101. -/
structure Graphics where
  xVals : List ℚ
  tVals : List ℚ
  yVals : List ℚ
  aVals : List ℚ
  vVals : List ℚ
deriving DecidableEq

/-- The five `append` statements of lines 85-89. -/
def record (g : Graphics) (s : SimState) : Graphics :=
  { xVals := g.xVals ++ [s.speedOnYAxis * s.time]
    tVals := g.tVals ++ [s.time]
    yVals := g.yVals ++ [s.pos]
    aVals := g.aVals ++ [s.a]
    vVals := g.vVals ++ [s.speedOnYAxis] }

/-- The `for` loop of `SimulationForGraphics`, lines 83-99, with at most `fuel`
iterations. -/
def graphLoop (num : consts) (log : ℚ → ℚ) (u : ℚ) : Nat → SimState → Graphics → Option Graphics
  | 0, s, g => if simGuard num s then none else some g
  | fuel + 1, s, g =>
    if simGuard num s then graphLoop num log u fuel (simBody num log u s) (record g s)
    else some g

/-- Function `SimulationForGraphics`, lines 69-102. -/
def SimulationForGraphics (num : consts) (log : ℚ → ℚ) (u : ℚ) (fuel : Nat) : Option Graphics :=
  graphLoop num log u fuel (simInit num log u) ⟨[], [], [], [], []⟩

/-- The parameters `main` sets (lines 105-116) on reading the radii `r1`, `r2`,
the speed `v` and the length `l`. -/
def mainConsts (r1 r2 v l : ℚ) : consts :=
  { eCharge := 16 / 10 * (1 / 10 ^ 19)
    eMass := 91 / 10 * (1 / 10 ^ 31)
    startSpeed := v
    length := l
    innerRadius := r1
    outerRadius := r2
    startPosition := (r2 - r1) / 2
    finishedPosition := 0
    dt := l / (v * 1000) }

/-- A rational stand-in for `math.Log` used in concrete runs: the Padé
approximant `3 (x² - 1) / (x² + 4 x + 1)` of the natural logarithm at `1`
(`9/13 ≈ 0.6923` at `x = 2`, where `ln 2 ≈ 0.6931`). -/
def logApprox (x : ℚ) : ℚ := 3 * (x ^ 2 - 1) / (x ^ 2 + 4 * x + 1)

/-- The scenario of the specification: `innerRadius = 0.01`, `outerRadius = 0.02`,
`startSpeed = 1e6`, `length = 0.1`. -/
def scenario : consts := mainConsts (1 / 100) (2 / 100) 1000000 (1 / 10)

/-- The particle survives at voltage `u`: the simulation returns a position `> 0`. -/
def Survives (sim : ℚ → Option ℚ) (u : ℚ) : Prop := ∃ p, sim u = some p ∧ 0 < p

/-- The particle hits the inner wall at voltage `u`: the simulation returns a position `≤ 0`. -/
def HitsWall (sim : ℚ → Option ℚ) (u : ℚ) : Prop := ∃ p, sim u = some p ∧ p ≤ 0

/-- The locals of the stepping loop after `i` passes through its body. -/
def simStateAt (num : consts) (log : ℚ → ℚ) (u : ℚ) (i : Nat) : SimState :=
  (simBody num log u)^[i] (simInit num log u)

/-- The stepping loop at voltage `u` performs exactly `N` iterations: the guard
holds before each of the first `N` passes and fails after the `N`-th. -/
def IterationCount (num : consts) (log : ℚ → ℚ) (u : ℚ) (N : Nat) : Prop :=
  (∀ i, i < N → simGuard num (simStateAt num log u i) = true) ∧
    simGuard num (simStateAt num log u N) = false

/-- A number of iterations after which the transit-time bound is exceeded. -/
def transitSteps (num : consts) : Nat :=
  ⌊num.length / (num.dt * num.startSpeed)⌋₊ + 1

/-- The samples of a recorded run with `N` iterations, as the specification
describes them: sample `i` is the state held before the `(i+1)`-th update,
with elapsed time `i * dt` and lateral displacement `vy * t`. -/
def samples (num : consts) (log : ℚ → ℚ) (u : ℚ) (N : Nat) : Graphics :=
  { xVals := (List.range N).map
      (fun i : Nat => (simStateAt num log u i).speedOnYAxis * ((i : ℚ) * num.dt))
    tVals := (List.range N).map (fun i : Nat => (i : ℚ) * num.dt)
    yVals := (List.range N).map (fun i => (simStateAt num log u i).pos)
    aVals := (List.range N).map (fun i => (simStateAt num log u i).a)
    vVals := (List.range N).map (fun i => (simStateAt num log u i).speedOnYAxis) }

/-- The bisection loop of `FindMinimumPotentialDifference` together with the
list of the voltages at which it has called the simulation (one call per pass,
line 59). -/
def findLoopCalls (sim : ℚ → Option ℚ) : Nat → ℚ × ℚ → List ℚ → Option (ℚ × List ℚ)
  | 0, b, calls => if b.2 - b.1 > 1 / 100000 then none else some (b.2, calls)
  | fuel + 1, b, calls =>
    if b.2 - b.1 > 1 / 100000 then
      (findBody sim b).bind (fun b' => findLoopCalls sim fuel b' (calls ++ [(b.1 + b.2) / 2]))
    else some (b.2, calls)

/-- The stepping loop of `Simulation` together with the list of the radial
distances it has passed to `CountAccelerationAtDistanceFromAxis` (the call of
line 46 at the end of each pass). -/
def simRadiiLoop (num : consts) (log : ℚ → ℚ) (u : ℚ) :
    Nat → SimState → List ℚ → Option (List ℚ)
  | 0, s, rs => if simGuard num s then none else some rs
  | fuel + 1, s, rs =>
    if simGuard num s then
      simRadiiLoop num log u fuel (simBody num log u s)
        (rs ++ [(simBody num log u s).pos + num.innerRadius])
    else some rs

/-- The radial distances of all calls of `CountAccelerationAtDistanceFromAxis`
made by `Simulation(u)`, in order: the initial call of line 33, then one call
per pass of the loop. -/
def SimulationRadii (num : consts) (log : ℚ → ℚ) (u : ℚ) (fuel : Nat) : Option (List ℚ) :=
  simRadiiLoop num log u fuel (simInit num log u) [num.startPosition + num.innerRadius]

/-- Valid parameters: positive charge and mass, `outerRadius > innerRadius > 0`,
positive speed, length, time step and start position. -/
def validConsts (num : consts) : Prop :=
  0 < num.eCharge ∧ 0 < num.eMass ∧ 0 < num.innerRadius ∧ num.innerRadius < num.outerRadius ∧
    0 < num.startSpeed ∧ 0 < num.length ∧ 0 < num.dt ∧ 0 < num.startPosition

/-- A small valid parameter set whose runs take at most two steps: unit charge,
mass, speed and length, radii `1` and `2`, start position `1/2`, time step `1`. -/
def twoStep : consts :=
  { eCharge := 1
    eMass := 1
    startSpeed := 1
    length := 1
    innerRadius := 1
    outerRadius := 2
    startPosition := 1 / 2
    finishedPosition := 0
    dt := 1 }

/-! ## The integrator with rounded arithmetic

The definitions above run the program over exact rationals.  The ones below
run the same statements with a rounding `rnd : ℚ → ℚ` applied to the result of
every arithmetic operation, in the order in which the source evaluates them
(no fused multiply-add).  With `rnd = id` they are the exact definitions; with
`rnd = fl64` they are the `float64` program, as long as no operation
overflows or underflows.  `math.Log` is a parameter as before, and
`math.Pow(dt, 2)` is the rounded square. -/

/-- Rounding to the nearest integer, ties to even. -/
def roundEven (m : ℚ) : ℤ :=
  if m - ⌊m⌋ < 1 / 2 then ⌊m⌋
  else if 1 / 2 < m - ⌊m⌋ then ⌊m⌋ + 1
  else if ⌊m⌋ % 2 = 0 then ⌊m⌋ else ⌊m⌋ + 1

/-- Auxiliary function of `bitLength`: halve `n` at most `fuel` times. -/
def bitLengthAux : Nat → Nat → Nat
  | 0, _ => 0
  | fuel + 1, n => if n < 2 then 0 else bitLengthAux fuel (n / 2) + 1

/-- The integer binary logarithm `⌊log2 n⌋` of `n ≥ 1` (and `0` for `n = 0`). -/
def bitLength (n : Nat) : Nat := bitLengthAux n n

/-- The binary exponent `e` of a positive rational `a`: `2 ^ e ≤ a < 2 ^ (e + 1)`. -/
def binade (a : ℚ) : ℤ :=
  if (2 : ℚ) ^ ((bitLength a.num.natAbs : ℤ) - (bitLength a.den : ℤ)) ≤ a
  then (bitLength a.num.natAbs : ℤ) - (bitLength a.den : ℤ)
  else (bitLength a.num.natAbs : ℤ) - (bitLength a.den : ℤ) - 1

/-- Rounding to the nearest `float64` (53 significant bits, ties to even), with
an unbounded exponent range. -/
def fl64 (q : ℚ) : ℚ :=
  if q = 0 then 0
  else if 0 < q then (roundEven (q / 2 ^ (binade q - 52)) : ℚ) * 2 ^ (binade q - 52)
  else -((roundEven (-q / 2 ^ (binade (-q) - 52)) : ℚ) * 2 ^ (binade (-q) - 52))

/-- `CountAccelerationAtDistanceFromAxis`, lines 26-29, with rounded arithmetic. -/
def CountAccelerationF (rnd : ℚ → ℚ) (num : consts) (log : ℚ → ℚ) (u r : ℚ) : ℚ :=
  rnd (rnd (num.eCharge * u) /
    rnd (rnd (num.eMass * r) * log (rnd (num.outerRadius / num.innerRadius))))

/-- Initialisation of the locals, lines 33-36 and 78-81, with rounded arithmetic. -/
def simInitF (rnd : ℚ → ℚ) (num : consts) (log : ℚ → ℚ) (u : ℚ) : SimState :=
  { a := CountAccelerationF rnd num log u (rnd (num.startPosition + num.innerRadius))
    speedOnYAxis := 0
    time := 0
    pos := num.startPosition }

/-- Loop guard of lines 38 and 83, with the rounded product `time*num.startSpeed`. -/
def simGuardF (rnd : ℚ → ℚ) (num : consts) (s : SimState) : Bool :=
  decide (0 < s.pos) && decide (rnd (s.time * num.startSpeed) ≤ num.length)

/-- One pass through the loop body, lines 39-46 and 91-98, and the post
statement `time += num.dt`, with rounded arithmetic. -/
def simBodyF (rnd : ℚ → ℚ) (num : consts) (log : ℚ → ℚ) (u : ℚ) (s : SimState) : SimState :=
  let pos := rnd (s.pos +
    rnd (rnd (-s.speedOnYAxis * num.dt) - rnd (rnd (s.a * rnd (num.dt ^ 2)) / 2)))
  let speedOnYAxis := if 0 < pos then rnd (s.speedOnYAxis + rnd (s.a * num.dt)) else 0
  let a := CountAccelerationF rnd num log u (rnd (pos + num.innerRadius))
  { a := a, speedOnYAxis := speedOnYAxis, time := rnd (s.time + num.dt), pos := pos }

/-- The `for` loop of `Simulation` with rounded arithmetic and at most `fuel` iterations. -/
def simLoopF (rnd : ℚ → ℚ) (num : consts) (log : ℚ → ℚ) (u : ℚ) :
    Nat → SimState → Option SimState
  | 0, s => if simGuardF rnd num s then none else some s
  | fuel + 1, s =>
    if simGuardF rnd num s then simLoopF rnd num log u fuel (simBodyF rnd num log u s)
    else some s

/-- Function `Simulation` with rounded arithmetic. -/
def SimulationF (rnd : ℚ → ℚ) (num : consts) (log : ℚ → ℚ) (u : ℚ) (fuel : Nat) : Option ℚ :=
  (simLoopF rnd num log u fuel (simInitF rnd num log u)).map (fun s => s.pos)

/-- The five `append` statements of lines 85-89, with the rounded product
`speedOnYAxis*time`. -/
def recordF (rnd : ℚ → ℚ) (g : Graphics) (s : SimState) : Graphics :=
  { xVals := g.xVals ++ [rnd (s.speedOnYAxis * s.time)]
    tVals := g.tVals ++ [s.time]
    yVals := g.yVals ++ [s.pos]
    aVals := g.aVals ++ [s.a]
    vVals := g.vVals ++ [s.speedOnYAxis] }

/-- The `for` loop of `SimulationForGraphics` with rounded arithmetic. -/
def graphLoopF (rnd : ℚ → ℚ) (num : consts) (log : ℚ → ℚ) (u : ℚ) :
    Nat → SimState → Graphics → Option Graphics
  | 0, s, g => if simGuardF rnd num s then none else some g
  | fuel + 1, s, g =>
    if simGuardF rnd num s then
      graphLoopF rnd num log u fuel (simBodyF rnd num log u s) (recordF rnd g s)
    else some g

/-- Function `SimulationForGraphics` with rounded arithmetic. -/
def SimulationForGraphicsF (rnd : ℚ → ℚ) (num : consts) (log : ℚ → ℚ) (u : ℚ) (fuel : Nat) :
    Option Graphics :=
  graphLoopF rnd num log u fuel (simInitF rnd num log u) ⟨[], [], [], [], []⟩

/-- The parameters `main` sets (lines 105-116) with rounded arithmetic, on
reading `r1`, `r2`, `v`, `l`; `q` and `m` are the values of the constant
expressions of lines 105 and 106. -/
def mainConstsF (rnd : ℚ → ℚ) (q m r1 r2 v l : ℚ) : consts :=
  { eCharge := q
    eMass := m
    startSpeed := v
    length := l
    innerRadius := r1
    outerRadius := r2
    startPosition := rnd (rnd (r2 - r1) / 2)
    finishedPosition := 0
    dt := rnd (l / rnd (v * 1000)) }

/-- The locals of the rounded stepping loop after `i` passes through its body. -/
def simStateAtF (rnd : ℚ → ℚ) (num : consts) (log : ℚ → ℚ) (u : ℚ) (i : Nat) : SimState :=
  (simBodyF rnd num log u)^[i] (simInitF rnd num log u)

/-- The rounded stepping loop at voltage `u` performs exactly `N` iterations. -/
def IterationCountF (rnd : ℚ → ℚ) (num : consts) (log : ℚ → ℚ) (u : ℚ) (N : Nat) : Prop :=
  (∀ i, i < N → simGuardF rnd num (simStateAtF rnd num log u i) = true) ∧
    simGuardF rnd num (simStateAtF rnd num log u N) = false

/-- The samples of a recorded run with `N` iterations: sample `i` is the state
held before the `(i+1)`-th update, with the clock `t` of that state and the
lateral displacement `vy * t`. -/
def samplesF (rnd : ℚ → ℚ) (num : consts) (log : ℚ → ℚ) (u : ℚ) (N : Nat) : Graphics :=
  { xVals := (List.range N).map (fun i =>
      rnd ((simStateAtF rnd num log u i).speedOnYAxis * (simStateAtF rnd num log u i).time))
    tVals := (List.range N).map (fun i => (simStateAtF rnd num log u i).time)
    yVals := (List.range N).map (fun i => (simStateAtF rnd num log u i).pos)
    aVals := (List.range N).map (fun i => (simStateAtF rnd num log u i).a)
    vVals := (List.range N).map (fun i => (simStateAtF rnd num log u i).speedOnYAxis) }

/-- The clock of the rounded loop after `i` iterations: `dt` added `i` times,
each sum rounded. -/
def clockF (rnd : ℚ → ℚ) (dt : ℚ) (i : Nat) : ℚ :=
  (fun t => rnd (t + dt))^[i] 0

/-- The stand-in `logApprox` rounded to `float64`. -/
def logF (x : ℚ) : ℚ := fl64 (logApprox x)

/-- The scenario of the specification as `main` stores it in `float64` on the
input `0.01 0.02 1e6 0.1`; the constants of lines 105 and 106 are taken as the
`float64` nearest to `1.6e-19` and `9.1e-31`. -/
def scenarioF : consts :=
  mainConstsF fl64 (fl64 (16 / 10 ^ 20)) (fl64 (91 / 10 ^ 32)) (fl64 (1 / 100)) (fl64 (2 / 100))
    1000000 (fl64 (1 / 10))

/-- The parameters `main` stores in `float64` on the input `1 2 1 1`, with the
same constants. -/
def unitF : consts :=
  mainConstsF fl64 (fl64 (16 / 10 ^ 20)) (fl64 (91 / 10 ^ 32)) 1 2 1 1

/-! ## The bisection loop, for an arbitrary simulation -/

theorem findBody_cases (sim : ℚ → Option ℚ) (b b' : ℚ × ℚ) (h : findBody sim b = some b') :
    (b' = (b.1, (b.1 + b.2) / 2) ∧ HitsWall sim ((b.1 + b.2) / 2)) ∨
    (b' = ((b.1 + b.2) / 2, b.2) ∧ Survives sim ((b.1 + b.2) / 2)) := by
  unfold findBody at h
  cases hs : sim ((b.1 + b.2) / 2) with
  | none => simp [hs] at h
  | some p =>
    simp only [hs] at h
    by_cases hp : p ≤ 0
    · left
      rw [if_pos hp] at h
      exact ⟨(Option.some.inj h).symm, p, hs, hp⟩
    · right
      rw [if_neg hp] at h
      exact ⟨(Option.some.inj h).symm, p, hs, lt_of_not_ge hp⟩

theorem findBody_isSome (sim : ℚ → Option ℚ) (b : ℚ × ℚ)
    (h : (sim ((b.1 + b.2) / 2)).isSome) : ∃ b', findBody sim b = some b' := by
  unfold findBody
  cases hs : sim ((b.1 + b.2) / 2) with
  | none => simp [hs] at h
  | some p =>
    by_cases hp : p ≤ 0
    · exact ⟨(b.1, (b.1 + b.2) / 2), by simp only [hs, if_pos hp]⟩
    · exact ⟨((b.1 + b.2) / 2, b.2), by simp only [hs, if_neg hp]⟩

theorem findBracket_succ (sim : ℚ → Option ℚ) (k : Nat) (b : ℚ × ℚ)
    (h : findBracket sim (k + 1) = some b) :
    ∃ b', findBracket sim k = some b' ∧ b'.2 - b'.1 > 1 / 100000 ∧ findBody sim b' = some b := by
  simp only [findBracket] at h
  cases hk : findBracket sim k with
  | none => simp [hk] at h
  | some b' =>
    simp only [hk, Option.some_bind] at h
    by_cases hg : b'.2 - b'.1 > 1 / 100000
    · rw [if_pos hg] at h
      exact ⟨b', rfl, hg, h⟩
    · rw [if_neg hg] at h
      exact absurd h (by simp)

theorem findBracket_step (sim : ℚ → Option ℚ) (k : Nat) (b b' : ℚ × ℚ)
    (hk : findBracket sim k = some b) (hg : b.2 - b.1 > 1 / 100000)
    (hb : findBody sim b = some b') : findBracket sim (k + 1) = some b' := by
  simp only [findBracket, hk, Option.some_bind, if_pos hg, hb]

theorem findBracket_stop (sim : ℚ → Option ℚ) (k : Nat) (b : ℚ × ℚ)
    (hk : findBracket sim k = some b) (hg : ¬ b.2 - b.1 > 1 / 100000) :
    findBracket sim (k + 1) = none := by
  simp only [findBracket, hk, Option.some_bind, if_neg hg]

/-- The bracket after `k` iterations has width `1000 / 2 ^ k`. -/
theorem findBracket_width (sim : ℚ → Option ℚ) :
    ∀ (k : Nat) (b : ℚ × ℚ), findBracket sim k = some b → b.2 - b.1 = 1000 / 2 ^ k := by
  intro k
  induction k with
  | zero =>
    intro b h
    simp only [findBracket, Option.some.injEq] at h
    subst h
    norm_num
  | succ k ih =>
    intro b h
    obtain ⟨b', hk, _, hb⟩ := findBracket_succ sim k b h
    have hw := ih b' hk
    have h2 : (1000 : ℚ) / 2 ^ (k + 1) = (1000 / 2 ^ k) / 2 := by
      rw [pow_succ]; field_simp
    rw [h2, ← hw]
    rcases findBody_cases sim b' b hb with ⟨rfl, _⟩ | ⟨rfl, _⟩
    · simp only; ring
    · simp only; ring

/-- Running the loop from the start for `fuel + k` iterations is running it for
`fuel` iterations from the bracket reached after `k` iterations. -/
theorem findLoop_of_findBracket (sim : ℚ → Option ℚ) :
    ∀ (k fuel : Nat) (b : ℚ × ℚ), findBracket sim k = some b →
      findLoop sim (fuel + k) (0, 1000) = findLoop sim fuel b := by
  intro k
  induction k with
  | zero =>
    intro fuel b h
    simp only [findBracket, Option.some.injEq] at h
    subst h
    rfl
  | succ k ih =>
    intro fuel b h
    obtain ⟨b', hk, hg, hb⟩ := findBracket_succ sim k b h
    have e : fuel + (k + 1) = (fuel + 1) + k := by omega
    rw [e, ih (fuel + 1) b' hk]
    simp only [findLoop, if_pos hg, hb, Option.some_bind]

theorem pow_two_bound_lt (k : Nat) (hk : k < 27) : (1000 : ℚ) / 2 ^ k > 1 / 100000 := by
  have h1 : (2 : ℚ) ^ k ≤ 2 ^ 26 := pow_le_pow_right₀ (by norm_num) (by omega)
  have h2 : (0 : ℚ) < 2 ^ k := by positivity
  rw [gt_iff_lt, lt_div_iff₀ h2]
  have h3 : (2 : ℚ) ^ 26 = 67108864 := by norm_num
  rw [h3] at h1
  linarith

/-- When every call of the simulation returns, the loop head is reached after
each of `0, …, 27` iterations. -/
theorem findBracket_exists (sim : ℚ → Option ℚ) (hsim : ∀ u, (sim u).isSome) :
    ∀ k : Nat, k ≤ 27 → ∃ b, findBracket sim k = some b := by
  intro k
  induction k with
  | zero => intro _; exact ⟨(0, 1000), rfl⟩
  | succ k ih =>
    intro hk
    obtain ⟨b, hb⟩ := ih (by omega)
    have hg : b.2 - b.1 > 1 / 100000 := by
      rw [findBracket_width sim k b hb]
      exact pow_two_bound_lt k (by omega)
    obtain ⟨b', hb'⟩ := findBody_isSome sim b (hsim _)
    exact ⟨b', findBracket_step sim k b b' hb hg hb'⟩

/-- Bracket invariant of the bisection. -/
theorem findBracket_invariant (sim : ℚ → Option ℚ) (h0 : Survives sim 0)
    (h1 : HitsWall sim 1000) :
    ∀ (k : Nat) (b : ℚ × ℚ), findBracket sim k = some b →
      Survives sim b.1 ∧ HitsWall sim b.2 := by
  intro k
  induction k with
  | zero =>
    intro b h
    simp only [findBracket, Option.some.injEq] at h
    subst h
    exact ⟨h0, h1⟩
  | succ k ih =>
    intro b h
    obtain ⟨b', hk, _, hb⟩ := findBracket_succ sim k b h
    obtain ⟨hl, hr⟩ := ih b' hk
    rcases findBody_cases sim b' b hb with ⟨rfl, hm⟩ | ⟨rfl, hm⟩
    · exact ⟨hl, hm⟩
    · exact ⟨hm, hr⟩

/-- With every call returning, the search stops after 27 iterations and returns
the right end of the bracket reached then. -/
theorem findLoop_returns (sim : ℚ → Option ℚ) (hsim : ∀ u, (sim u).isSome) :
    ∃ b, findBracket sim 27 = some b ∧ b.2 - b.1 = 1000 / 2 ^ 27 ∧
      ∀ fuel, 27 ≤ fuel → findLoop sim fuel (0, 1000) = some b.2 := by
  obtain ⟨b, hb⟩ := findBracket_exists sim hsim 27 (le_refl _)
  have hw := findBracket_width sim 27 b hb
  refine ⟨b, hb, hw, ?_⟩
  intro fuel hfuel
  have h := findLoop_of_findBracket sim 27 (fuel - 27) b hb
  rw [Nat.sub_add_cancel hfuel] at h
  rw [h]
  have hg : ¬ b.2 - b.1 > 1 / 100000 := by
    rw [hw]; norm_num
  cases fuel - 27 with
  | zero => simp only [findLoop, if_neg hg]
  | succ n => simp only [findLoop, if_neg hg]

/-! ## The stepping loop -/

theorem simGuard_true_iff (num : consts) (s : SimState) :
    simGuard num s = true ↔ 0 < s.pos ∧ s.time * num.startSpeed ≤ num.length := by
  simp [simGuard]

theorem simGuard_false_iff (num : consts) (s : SimState) :
    simGuard num s = false ↔ (s.pos ≤ 0 ∨ num.length < s.time * num.startSpeed) := by
  rw [← Bool.not_eq_true, simGuard_true_iff]
  constructor
  · intro h
    by_cases hp : 0 < s.pos
    · right
      exact lt_of_not_ge (fun hl => h ⟨hp, hl⟩)
    · left
      exact le_of_not_gt hp
  · rintro (h | h) ⟨hp, hl⟩
    · exact absurd hp (not_lt.mpr h)
    · exact absurd hl (not_le.mpr h)

theorem simLoop_zero (num : consts) (log : ℚ → ℚ) (u : ℚ) (s : SimState) :
    simLoop num log u 0 s = if simGuard num s then none else some s := rfl

theorem simLoop_succ (num : consts) (log : ℚ → ℚ) (u : ℚ) (n : Nat) (s : SimState) :
    simLoop num log u (n + 1) s =
      if simGuard num s then simLoop num log u n (simBody num log u s) else some s := rfl

/-- A run of the loop that returns has performed some number `N ≤ fuel` of
iterations, and conversely. -/
theorem simLoop_eq_some_iff (num : consts) (log : ℚ → ℚ) (u : ℚ) :
    ∀ (n : Nat) (s r : SimState), simLoop num log u n s = some r ↔
      ∃ N, N ≤ n ∧ (∀ i, i < N → simGuard num ((simBody num log u)^[i] s) = true) ∧
        simGuard num ((simBody num log u)^[N] s) = false ∧ r = (simBody num log u)^[N] s := by
  intro n
  induction n with
  | zero =>
    intro s r
    rw [simLoop_zero]
    constructor
    · intro h
      by_cases hg : simGuard num s = true
      · rw [if_pos hg] at h; exact absurd h (by simp)
      · rw [if_neg hg] at h
        refine ⟨0, le_refl _, fun i hi => absurd hi (Nat.not_lt_zero i), ?_, ?_⟩
        · simpa using hg
        · simpa using (Option.some.inj h).symm
    · rintro ⟨N, hN, _, hg, hr⟩
      have h0 : N = 0 := Nat.le_zero.mp hN
      subst h0
      simp only [Function.iterate_zero, id_eq] at hg hr
      rw [hr]
      simp [hg]
  | succ n ih =>
    intro s r
    rw [simLoop_succ]
    by_cases hg : simGuard num s = true
    · rw [if_pos hg, ih]
      constructor
      · rintro ⟨N, hN, hall, hstop, hr⟩
        refine ⟨N + 1, Nat.succ_le_succ hN, ?_, ?_, ?_⟩
        · intro i hi
          cases i with
          | zero => simpa using hg
          | succ i =>
            rw [Function.iterate_succ_apply]
            exact hall i (Nat.lt_of_succ_lt_succ hi)
        · rw [Function.iterate_succ_apply]; exact hstop
        · rw [Function.iterate_succ_apply]; exact hr
      · rintro ⟨N, hN, hall, hstop, hr⟩
        cases N with
        | zero =>
          simp only [Function.iterate_zero, id_eq] at hstop
          rw [hstop] at hg
          exact absurd hg (by simp)
        | succ N =>
          refine ⟨N, Nat.le_of_succ_le_succ hN, ?_, ?_, ?_⟩
          · intro i hi
            have := hall (i + 1) (Nat.succ_lt_succ hi)
            rwa [Function.iterate_succ_apply] at this
          · rwa [Function.iterate_succ_apply] at hstop
          · rwa [Function.iterate_succ_apply] at hr
    · rw [if_neg hg]
      have hg' : simGuard num s = false := by simpa using hg
      constructor
      · intro h
        refine ⟨0, Nat.zero_le _, fun i hi => absurd hi (Nat.not_lt_zero i), ?_, ?_⟩
        · simpa using hg'
        · simpa using (Option.some.inj h).symm
      · rintro ⟨N, _, hall, _, hr⟩
        cases N with
        | zero =>
          simp only [Function.iterate_zero, id_eq] at hr
          rw [hr]
        | succ N =>
          have := hall 0 (Nat.succ_pos N)
          simp only [Function.iterate_zero, id_eq] at this
          rw [this] at hg'
          exact absurd hg' (by simp)

/-- The number of iterations of a run is determined by the guard. -/
theorem IterationCount_unique (num : consts) (log : ℚ → ℚ) (u : ℚ) (N M : Nat)
    (hN : IterationCount num log u N) (hM : IterationCount num log u M) : N = M := by
  rcases Nat.lt_trichotomy N M with h | h | h
  · have := hM.1 N h
    rw [hN.2] at this
    exact absurd this (by simp)
  · exact h
  · have := hN.1 M h
    rw [hM.2] at this
    exact absurd this (by simp)

theorem Simulation_eq_some_iff (num : consts) (log : ℚ → ℚ) (u : ℚ) (fuel : Nat) (p : ℚ) :
    Simulation num log u fuel = some p ↔
      ∃ N, N ≤ fuel ∧ IterationCount num log u N ∧ p = (simStateAt num log u N).pos := by
  unfold Simulation IterationCount simStateAt
  constructor
  · intro h
    cases hl : simLoop num log u fuel (simInit num log u) with
    | none => simp [hl] at h
    | some r =>
      rw [hl] at h
      obtain ⟨N, hN, hall, hstop, hr⟩ := (simLoop_eq_some_iff num log u fuel _ r).mp hl
      refine ⟨N, hN, ⟨hall, hstop⟩, ?_⟩
      rw [← hr]
      exact (Option.some.inj h).symm
  · rintro ⟨N, hN, ⟨hall, hstop⟩, hp⟩
    have := (simLoop_eq_some_iff num log u fuel (simInit num log u) _).mpr
      ⟨N, hN, hall, hstop, rfl⟩
    rw [this, hp]
    rfl

/-- More fuel does not change the result of a run that returns. -/
theorem Simulation_fuel_mono (num : consts) (log : ℚ → ℚ) (u : ℚ) (n m : Nat) (p : ℚ)
    (h : Simulation num log u n = some p) (hnm : n ≤ m) : Simulation num log u m = some p := by
  obtain ⟨N, hN, hc, hp⟩ := (Simulation_eq_some_iff num log u n p).mp h
  exact (Simulation_eq_some_iff num log u m p).mpr ⟨N, le_trans hN hnm, hc, hp⟩

/-- Two runs at the same voltage that return give the same position. -/
theorem Simulation_fuel_unique (num : consts) (log : ℚ → ℚ) (u : ℚ) (n m : Nat) (p q : ℚ)
    (h : Simulation num log u n = some p) (h' : Simulation num log u m = some q) : p = q := by
  obtain ⟨N, _, hc, hp⟩ := (Simulation_eq_some_iff num log u n p).mp h
  obtain ⟨M, _, hc', hq⟩ := (Simulation_eq_some_iff num log u m q).mp h'
  rw [hp, hq, IterationCount_unique num log u N M hc hc']

theorem simBody_time (num : consts) (log : ℚ → ℚ) (u : ℚ) (s : SimState) :
    (simBody num log u s).time = s.time + num.dt := rfl

theorem simBody_pos (num : consts) (log : ℚ → ℚ) (u : ℚ) (s : SimState) :
    (simBody num log u s).pos = s.pos + (-s.speedOnYAxis * num.dt - s.a * num.dt ^ 2 / 2) := rfl

theorem simBody_a (num : consts) (log : ℚ → ℚ) (u : ℚ) (s : SimState) :
    (simBody num log u s).a =
      CountAccelerationAtDistanceFromAxis num log u ((simBody num log u s).pos + num.innerRadius) :=
  rfl

theorem simBody_speed (num : consts) (log : ℚ → ℚ) (u : ℚ) (s : SimState) :
    (simBody num log u s).speedOnYAxis =
      if 0 < (simBody num log u s).pos then s.speedOnYAxis + s.a * num.dt else 0 := rfl

theorem simStateAt_succ (num : consts) (log : ℚ → ℚ) (u : ℚ) (i : Nat) :
    simStateAt num log u (i + 1) = simBody num log u (simStateAt num log u i) := by
  unfold simStateAt
  rw [Function.iterate_succ_apply']

/-- Over exact arithmetic the clock after `i` iterations is `i * dt`. -/
theorem simStateAt_time (num : consts) (log : ℚ → ℚ) (u : ℚ) (i : Nat) :
    (simStateAt num log u i).time = i * num.dt := by
  induction i with
  | zero => simp [simStateAt, simInit]
  | succ i ih =>
    rw [simStateAt_succ, simBody_time, ih]
    push_cast
    ring

/-- Once the guard fails at some index, the loop has a definite number of iterations. -/
theorem exists_IterationCount (num : consts) (log : ℚ → ℚ) (u : ℚ) (M : Nat)
    (h : simGuard num (simStateAt num log u M) = false) :
    ∃ N, N ≤ M ∧ IterationCount num log u N := by
  classical
  have hex : ∃ i, simGuard num (simStateAt num log u i) = false := ⟨M, h⟩
  refine ⟨Nat.find hex, Nat.find_min' hex h, ?_, Nat.find_spec hex⟩
  intro i hi
  have := Nat.find_min hex hi
  simpa using this

/-- With a positive speed and a positive time step the transit-time bound is
exceeded after `transitSteps` iterations. -/
theorem transit_bound (num : consts) (hs : 0 < num.startSpeed) (hdt : 0 < num.dt) :
    num.length < (transitSteps num : ℚ) * num.dt * num.startSpeed := by
  have hpos : 0 < num.dt * num.startSpeed := mul_pos hdt hs
  have h := Nat.lt_floor_add_one (num.length / (num.dt * num.startSpeed))
  rw [div_lt_iff₀ hpos] at h
  unfold transitSteps
  push_cast
  linarith

/-- Termination of the stepping loop for a positive speed and a positive time step. -/
theorem Simulation_terminates (num : consts) (log : ℚ → ℚ) (u : ℚ)
    (hs : 0 < num.startSpeed) (hdt : 0 < num.dt) :
    ∃ N, N ≤ transitSteps num ∧ IterationCount num log u N ∧
      Simulation num log u (transitSteps num) = some (simStateAt num log u N).pos := by
  have hstop : simGuard num (simStateAt num log u (transitSteps num)) = false := by
    rw [simGuard_false_iff, simStateAt_time]
    right
    exact transit_bound num hs hdt
  obtain ⟨N, hN, hc⟩ := exists_IterationCount num log u _ hstop
  exact ⟨N, hN, hc, (Simulation_eq_some_iff num log u _ _).mpr ⟨N, hN, hc, rfl⟩⟩

theorem logRatio_pos (num : consts) (log : ℚ → ℚ) (hin : 0 < num.innerRadius)
    (hout : num.innerRadius < num.outerRadius) (hlog : ∀ x, 1 < x → 0 < log x) :
    0 < log (num.outerRadius / num.innerRadius) :=
  hlog _ ((one_lt_div hin).mpr hout)

theorem accel_zero (num : consts) (log : ℚ → ℚ) (r : ℚ) :
    CountAccelerationAtDistanceFromAxis num log 0 r = 0 := by
  simp [CountAccelerationAtDistanceFromAxis]

theorem accel_nonneg (num : consts) (log : ℚ → ℚ) (u r : ℚ) (hq : 0 < num.eCharge)
    (hm : 0 < num.eMass) (hL : 0 < log (num.outerRadius / num.innerRadius))
    (hu : 0 ≤ u) (hr : 0 < r) : 0 ≤ CountAccelerationAtDistanceFromAxis num log u r := by
  unfold CountAccelerationAtDistanceFromAxis
  exact div_nonneg (mul_nonneg hq.le hu) (mul_pos (mul_pos hm hr) hL).le

theorem accel_nonpos (num : consts) (log : ℚ → ℚ) (u r : ℚ) (hq : 0 < num.eCharge)
    (hm : 0 < num.eMass) (hL : 0 < log (num.outerRadius / num.innerRadius))
    (hu : u ≤ 0) (hr : 0 < r) : CountAccelerationAtDistanceFromAxis num log u r ≤ 0 := by
  unfold CountAccelerationAtDistanceFromAxis
  exact div_nonpos_of_nonpos_of_nonneg (mul_nonpos_of_nonneg_of_nonpos hq.le hu)
    (mul_pos (mul_pos hm hr) hL).le

/-- A larger voltage at a smaller positive radius gives a larger acceleration. -/
theorem accel_mono (num : consts) (log : ℚ → ℚ) (u₁ u₂ r₁ r₂ : ℚ) (hq : 0 < num.eCharge)
    (hm : 0 < num.eMass) (hL : 0 < log (num.outerRadius / num.innerRadius))
    (hu : 0 ≤ u₁) (hu₂ : u₁ ≤ u₂) (hr : 0 < r₂) (hr₂ : r₂ ≤ r₁) :
    CountAccelerationAtDistanceFromAxis num log u₁ r₁ ≤
      CountAccelerationAtDistanceFromAxis num log u₂ r₂ := by
  unfold CountAccelerationAtDistanceFromAxis
  have hd2 : 0 < num.eMass * r₂ * log (num.outerRadius / num.innerRadius) :=
    mul_pos (mul_pos hm hr) hL
  have hd : num.eMass * r₂ * log (num.outerRadius / num.innerRadius) ≤
      num.eMass * r₁ * log (num.outerRadius / num.innerRadius) :=
    mul_le_mul_of_nonneg_right (mul_le_mul_of_nonneg_left hr₂ hm.le) hL.le
  have hd1 : 0 < num.eMass * r₁ * log (num.outerRadius / num.innerRadius) :=
    lt_of_lt_of_le hd2 hd
  rw [div_le_div_iff₀ hd1 hd2]
  have hn : num.eCharge * u₁ ≤ num.eCharge * u₂ := mul_le_mul_of_nonneg_left hu₂ hq.le
  have hn0 : 0 ≤ num.eCharge * u₁ := mul_nonneg hq.le hu
  calc num.eCharge * u₁ * (num.eMass * r₂ * log (num.outerRadius / num.innerRadius))
      ≤ num.eCharge * u₁ * (num.eMass * r₁ * log (num.outerRadius / num.innerRadius)) :=
        mul_le_mul_of_nonneg_left hd hn0
    _ ≤ num.eCharge * u₂ * (num.eMass * r₁ * log (num.outerRadius / num.innerRadius)) :=
        mul_le_mul_of_nonneg_right hn hd1.le

/-- At zero voltage nothing moves: the state after any number of passes has
zero acceleration, zero speed and the start position. -/
theorem simStateAt_zero_voltage (num : consts) (log : ℚ → ℚ) (i : Nat) :
    (simStateAt num log 0 i).a = 0 ∧ (simStateAt num log 0 i).speedOnYAxis = 0 ∧
      (simStateAt num log 0 i).pos = num.startPosition := by
  induction i with
  | zero => simp [simStateAt, simInit, accel_zero]
  | succ i ih =>
    obtain ⟨ha, hv, hp⟩ := ih
    rw [simStateAt_succ]
    have hpos : (simBody num log 0 (simStateAt num log 0 i)).pos = num.startPosition := by
      rw [simBody_pos, ha, hv, hp]; ring
    refine ⟨?_, ?_, hpos⟩
    · rw [simBody_a, accel_zero]
    · rw [simBody_speed, ha, hv]; simp

/-- Zero voltage: the run returns the start position. -/
theorem Simulation_zero_voltage (num : consts) (log : ℚ → ℚ)
    (hs : 0 < num.startSpeed) (hdt : 0 < num.dt) :
    Simulation num log 0 (transitSteps num) = some num.startPosition := by
  obtain ⟨N, _, _, h⟩ := Simulation_terminates num log 0 hs hdt
  rw [h, (simStateAt_zero_voltage num log N).2.2]

/-- For a voltage `≤ 0` the particle never comes nearer to the inner wall. -/
theorem simStateAt_nonpos_voltage (num : consts) (log : ℚ → ℚ) (u : ℚ)
    (hq : 0 < num.eCharge) (hm : 0 < num.eMass)
    (hL : 0 < log (num.outerRadius / num.innerRadius)) (hin : 0 < num.innerRadius)
    (hdt : 0 < num.dt) (hp : 0 < num.startPosition) (hu : u ≤ 0) (i : Nat) :
    (simStateAt num log u i).a ≤ 0 ∧ (simStateAt num log u i).speedOnYAxis ≤ 0 ∧
      num.startPosition ≤ (simStateAt num log u i).pos := by
  induction i with
  | zero =>
    refine ⟨?_, le_refl _, le_refl _⟩
    exact accel_nonpos num log u _ hq hm hL hu (add_pos hp hin)
  | succ i ih =>
    obtain ⟨ha, hv, hpos⟩ := ih
    rw [simStateAt_succ]
    have h1 : 0 ≤ -(simStateAt num log u i).speedOnYAxis * num.dt :=
      mul_nonneg (neg_nonneg.mpr hv) hdt.le
    have h2 : (simStateAt num log u i).a * num.dt ^ 2 / 2 ≤ 0 :=
      div_nonpos_of_nonpos_of_nonneg (mul_nonpos_of_nonpos_of_nonneg ha (sq_nonneg _))
        (by norm_num)
    have hnew : num.startPosition ≤ (simBody num log u (simStateAt num log u i)).pos := by
      rw [simBody_pos]; linarith
    refine ⟨?_, ?_, hnew⟩
    · rw [simBody_a]
      exact accel_nonpos num log u _ hq hm hL hu (by linarith)
    · rw [simBody_speed, if_pos (lt_of_lt_of_le hp hnew)]
      have : (simStateAt num log u i).a * num.dt ≤ 0 :=
        mul_nonpos_of_nonpos_of_nonneg ha hdt.le
      linarith

/-- Comparison of the runs at voltages `0 ≤ u₁ ≤ u₂`: as long as the run at
`u₂` has stayed off the wall, it is at least as near to the wall as the run at
`u₁`, and while it is off the wall it is at least as fast and at least as
strongly accelerated. -/
theorem simStateAt_compare (num : consts) (log : ℚ → ℚ) (u₁ u₂ : ℚ)
    (hq : 0 < num.eCharge) (hm : 0 < num.eMass)
    (hL : 0 < log (num.outerRadius / num.innerRadius)) (hin : 0 < num.innerRadius)
    (hdt : 0 < num.dt) (hu : 0 ≤ u₁) (hu₂ : u₁ ≤ u₂) :
    ∀ i : Nat, (∀ j, j < i → 0 < (simStateAt num log u₂ j).pos) →
      (simStateAt num log u₂ i).pos ≤ (simStateAt num log u₁ i).pos ∧
      (0 < (simStateAt num log u₂ i).pos →
        (simStateAt num log u₁ i).speedOnYAxis ≤ (simStateAt num log u₂ i).speedOnYAxis ∧
        (simStateAt num log u₁ i).a ≤ (simStateAt num log u₂ i).a) := by
  intro i
  induction i with
  | zero =>
    intro _
    refine ⟨le_refl _, fun hp => ⟨le_refl _, ?_⟩⟩
    have hp' : 0 < num.startPosition := hp
    exact accel_mono num log u₁ u₂ _ _ hq hm hL hu hu₂ (add_pos hp' hin) (le_refl _)
  | succ i ih =>
    intro hall
    have hpi : 0 < (simStateAt num log u₂ i).pos := hall i (Nat.lt_succ_self i)
    obtain ⟨hpos, hrest⟩ := ih (fun j hj => hall j (Nat.lt_succ_of_lt hj))
    obtain ⟨hv, ha⟩ := hrest hpi
    rw [simStateAt_succ, simStateAt_succ]
    have h1 : (simStateAt num log u₁ i).speedOnYAxis * num.dt ≤
        (simStateAt num log u₂ i).speedOnYAxis * num.dt :=
      mul_le_mul_of_nonneg_right hv hdt.le
    have h2 : (simStateAt num log u₁ i).a * num.dt ^ 2 ≤
        (simStateAt num log u₂ i).a * num.dt ^ 2 :=
      mul_le_mul_of_nonneg_right ha (sq_nonneg _)
    have h3 : (simStateAt num log u₁ i).a * num.dt ≤ (simStateAt num log u₂ i).a * num.dt :=
      mul_le_mul_of_nonneg_right ha hdt.le
    have hnew : (simBody num log u₂ (simStateAt num log u₂ i)).pos ≤
        (simBody num log u₁ (simStateAt num log u₁ i)).pos := by
      rw [simBody_pos, simBody_pos]; linarith
    refine ⟨hnew, fun hp2 => ⟨?_, ?_⟩⟩
    · rw [simBody_speed, simBody_speed, if_pos hp2, if_pos (lt_of_lt_of_le hp2 hnew)]
      linarith
    · rw [simBody_a, simBody_a]
      exact accel_mono num log u₁ u₂ _ _ hq hm hL hu hu₂ (by linarith) (by linarith)

/-- The wall-hit outcome is monotone in the voltage: if the run at `u₁` ends
on the wall, so does the run at any `u₂ ≥ u₁ ≥ 0`. -/
theorem wallHit_mono (num : consts) (log : ℚ → ℚ) (u₁ u₂ : ℚ) (N₁ N₂ : Nat)
    (hq : 0 < num.eCharge) (hm : 0 < num.eMass)
    (hL : 0 < log (num.outerRadius / num.innerRadius)) (hin : 0 < num.innerRadius)
    (hdt : 0 < num.dt) (hu : 0 ≤ u₁) (hu₂ : u₁ ≤ u₂)
    (h₁ : IterationCount num log u₁ N₁) (h₂ : IterationCount num log u₂ N₂)
    (hhit : (simStateAt num log u₁ N₁).pos ≤ 0) : (simStateAt num log u₂ N₂).pos ≤ 0 := by
  by_contra hcon
  have hp2 : 0 < (simStateAt num log u₂ N₂).pos := lt_of_not_ge hcon
  have hall : ∀ j, j ≤ N₂ → 0 < (simStateAt num log u₂ j).pos := by
    intro j hj
    rcases Nat.lt_or_eq_of_le hj with h | h
    · exact ((simGuard_true_iff num _).mp (h₂.1 j h)).1
    · rw [h]; exact hp2
  have htime : num.length < (simStateAt num log u₂ N₂).time * num.startSpeed := by
    rcases (simGuard_false_iff num _).mp h₂.2 with h | h
    · exact absurd hp2 (not_lt.mpr h)
    · exact h
  rcases Nat.lt_or_ge N₂ N₁ with h | h
  · have hg := (simGuard_true_iff num _).mp (h₁.1 N₂ h)
    rw [simStateAt_time] at hg htime
    exact absurd hg.2 (not_le.mpr htime)
  · have hc := (simStateAt_compare num log u₁ u₂ hq hm hL hin hdt hu hu₂ N₁
      (fun j hj => hall j (le_trans (Nat.le_of_lt hj) h))).1
    have := hall N₁ h
    linarith

/-- Every bracket of the bisection lies in `[0, 1000]` and is not empty. -/
theorem findBracket_range (sim : ℚ → Option ℚ) :
    ∀ (k : Nat) (b : ℚ × ℚ), findBracket sim k = some b →
      0 ≤ b.1 ∧ b.1 < b.2 ∧ b.2 ≤ 1000 := by
  intro k
  induction k with
  | zero =>
    intro b h
    simp only [findBracket, Option.some.injEq] at h
    subst h
    norm_num
  | succ k ih =>
    intro b h
    obtain ⟨b', hk, _, hb⟩ := findBracket_succ sim k b h
    obtain ⟨h0, hlt, h1⟩ := ih b' hk
    rcases findBody_cases sim b' b hb with ⟨rfl, _⟩ | ⟨rfl, _⟩
    · refine ⟨h0, ?_, ?_⟩
      · show b'.1 < (b'.1 + b'.2) / 2
        linarith
      · show (b'.1 + b'.2) / 2 ≤ 1000
        linarith
    · refine ⟨?_, ?_, h1⟩
      · show 0 ≤ (b'.1 + b'.2) / 2
        linarith
      · show (b'.1 + b'.2) / 2 < b'.2
        linarith

/-! ## The recording loop -/

theorem foldl_record (states : List SimState) :
    ∀ g : Graphics, states.foldl record g =
      { xVals := g.xVals ++ states.map (fun s => s.speedOnYAxis * s.time)
        tVals := g.tVals ++ states.map (fun s => s.time)
        yVals := g.yVals ++ states.map (fun s => s.pos)
        aVals := g.aVals ++ states.map (fun s => s.a)
        vVals := g.vVals ++ states.map (fun s => s.speedOnYAxis) } := by
  induction states with
  | nil => intro g; simp
  | cons s rest ih =>
    intro g
    rw [List.foldl_cons, ih]
    simp [record]

/-- A recording run whose guard fails after `N ≤ fuel` iterations returns the
states before each of its `N` updates, in order. -/
theorem graphLoop_of_count (num : consts) (log : ℚ → ℚ) (u : ℚ) :
    ∀ (n N : Nat) (s : SimState) (g : Graphics), N ≤ n →
      (∀ i, i < N → simGuard num ((simBody num log u)^[i] s) = true) →
      simGuard num ((simBody num log u)^[N] s) = false →
      graphLoop num log u n s g =
        some (((List.range N).map (fun i => (simBody num log u)^[i] s)).foldl record g) := by
  intro n
  induction n with
  | zero =>
    intro N s g hN _ hstop
    have h0 : N = 0 := Nat.le_zero.mp hN
    subst h0
    simp only [Function.iterate_zero, id_eq] at hstop
    simp [graphLoop, hstop]
  | succ n ih =>
    intro N s g hN hall hstop
    cases N with
    | zero =>
      simp only [Function.iterate_zero, id_eq] at hstop
      simp [graphLoop, hstop]
    | succ N =>
      have hg : simGuard num s = true := by
        simpa using hall 0 (Nat.succ_pos N)
      have hrec := ih N (simBody num log u s) (record g s) (Nat.le_of_succ_le_succ hN)
        (fun i hi => by
          have := hall (i + 1) (Nat.succ_lt_succ hi)
          rwa [Function.iterate_succ_apply] at this)
        (by rwa [Function.iterate_succ_apply] at hstop)
      simp only [graphLoop, hg, if_true]
      rw [hrec, List.range_succ_eq_map, List.map_cons, List.foldl_cons, List.map_map]
      rfl

/-- The recording loop returns exactly when the scalar loop does. -/
theorem graphLoop_isSome (num : consts) (log : ℚ → ℚ) (u : ℚ) :
    ∀ (n : Nat) (s : SimState) (g : Graphics),
      (graphLoop num log u n s g).isSome = (simLoop num log u n s).isSome := by
  intro n
  induction n with
  | zero =>
    intro s g
    by_cases hg : simGuard num s = true
    · simp [graphLoop, simLoop, hg]
    · simp [graphLoop, simLoop, hg]
  | succ n ih =>
    intro s g
    by_cases hg : simGuard num s = true
    · simp only [graphLoop, simLoop, hg, if_true]
      exact ih _ _
    · simp [graphLoop, simLoop, hg]

/-- The recording run with `N ≤ fuel` iterations returns the samples of the
specification. -/
theorem SimulationForGraphics_of_count (num : consts) (log : ℚ → ℚ) (u : ℚ) (fuel N : Nat)
    (hN : N ≤ fuel) (hc : IterationCount num log u N) :
    SimulationForGraphics num log u fuel = some (samples num log u N) := by
  unfold SimulationForGraphics
  rw [graphLoop_of_count num log u fuel N _ _ hN hc.1 hc.2, foldl_record]
  simp only [samples, List.nil_append, List.map_map, Option.some.injEq, Graphics.mk.injEq]
  refine ⟨?_, ?_, rfl, rfl, rfl⟩
  · apply List.map_congr_left
    intro i _
    show (simStateAt num log u i).speedOnYAxis * (simStateAt num log u i).time = _
    rw [simStateAt_time]
  · apply List.map_congr_left
    intro i _
    show (simStateAt num log u i).time = _
    rw [simStateAt_time]

/-- A recording run that returns has a definite number of iterations within its fuel. -/
theorem SimulationForGraphics_eq_some (num : consts) (log : ℚ → ℚ) (u : ℚ) (fuel : Nat)
    (g : Graphics) (h : SimulationForGraphics num log u fuel = some g) :
    ∃ N, N ≤ fuel ∧ IterationCount num log u N ∧ g = samples num log u N := by
  have hs : (simLoop num log u fuel (simInit num log u)).isSome = true := by
    rw [← graphLoop_isSome num log u fuel _ ⟨[], [], [], [], []⟩]
    unfold SimulationForGraphics at h
    rw [h]; rfl
  obtain ⟨r, hr⟩ := Option.isSome_iff_exists.mp hs
  obtain ⟨N, hN, hall, hstop, _⟩ := (simLoop_eq_some_iff num log u fuel _ r).mp hr
  have hc : IterationCount num log u N := ⟨hall, hstop⟩
  refine ⟨N, hN, hc, ?_⟩
  have := SimulationForGraphics_of_count num log u fuel N hN hc
  rw [h] at this
  exact Option.some.inj this

/-! ## Instrumented loops -/

theorem findBody_width (sim : ℚ → Option ℚ) (b b' : ℚ × ℚ) (h : findBody sim b = some b') :
    b'.2 - b'.1 = (b.2 - b.1) / 2 := by
  rcases findBody_cases sim b b' h with ⟨rfl, _⟩ | ⟨rfl, _⟩
  · simp only; ring
  · simp only; ring

/-- Forgetting the list of calls gives back the bisection loop. -/
theorem findLoopCalls_fst (sim : ℚ → Option ℚ) :
    ∀ (fuel : Nat) (b : ℚ × ℚ) (calls : List ℚ),
      (findLoopCalls sim fuel b calls).map Prod.fst = findLoop sim fuel b := by
  intro fuel
  induction fuel with
  | zero =>
    intro b calls
    by_cases hg : b.2 - b.1 > 1 / 100000
    · simp only [findLoopCalls, findLoop, if_pos hg, Option.map_none']
    · simp only [findLoopCalls, findLoop, if_neg hg, Option.map_some']
  | succ fuel ih =>
    intro b calls
    by_cases hg : b.2 - b.1 > 1 / 100000
    · simp only [findLoopCalls, findLoop, if_pos hg]
      cases hb : findBody sim b with
      | none => rfl
      | some b' =>
        simp only [Option.some_bind]
        exact ih _ _
    · simp only [findLoopCalls, findLoop, if_neg hg, Option.map_some']

/-- From a bracket of width `1000 / 2 ^ k` the loop makes `27 - k` further calls. -/
theorem findLoopCalls_length (sim : ℚ → Option ℚ) :
    ∀ (fuel k : Nat) (b : ℚ × ℚ) (calls : List ℚ) (r : ℚ × List ℚ),
      b.2 - b.1 = 1000 / 2 ^ k → k ≤ 27 → findLoopCalls sim fuel b calls = some r →
      r.2.length = calls.length + (27 - k) := by
  intro fuel
  induction fuel with
  | zero =>
    intro k b calls r hw hk h
    by_cases hg : b.2 - b.1 > 1 / 100000
    · simp only [findLoopCalls, if_pos hg] at h
      exact absurd h (by simp)
    · have hk27 : k = 27 := by
        by_contra hne
        exact hg (hw ▸ pow_two_bound_lt k (by omega))
      simp only [findLoopCalls, if_neg hg, Option.some.injEq] at h
      subst h
      simp [hk27]
  | succ fuel ih =>
    intro k b calls r hw hk h
    by_cases hg : b.2 - b.1 > 1 / 100000
    · have hk27 : k < 27 := by
        by_contra hne
        have hk' : k = 27 := by omega
        rw [hw, hk'] at hg
        norm_num at hg
      simp only [findLoopCalls, if_pos hg] at h
      cases hb : findBody sim b with
      | none => simp [hb] at h
      | some b' =>
        simp only [hb, Option.some_bind] at h
        have hw' : b'.2 - b'.1 = 1000 / 2 ^ (k + 1) := by
          rw [findBody_width sim b b' hb, hw, pow_succ]
          field_simp
        have := ih (k + 1) b' _ r hw' (by omega) h
        rw [this, List.length_append, List.length_singleton]
        omega
    · have hk27 : k = 27 := by
        by_contra hne
        exact hg (hw ▸ pow_two_bound_lt k (by omega))
      simp only [findLoopCalls, if_neg hg, Option.some.injEq] at h
      subst h
      simp [hk27]

theorem simRadiiLoop_of_count (num : consts) (log : ℚ → ℚ) (u : ℚ) :
    ∀ (n N : Nat) (s : SimState) (rs : List ℚ), N ≤ n →
      (∀ i, i < N → simGuard num ((simBody num log u)^[i] s) = true) →
      simGuard num ((simBody num log u)^[N] s) = false →
      simRadiiLoop num log u n s rs =
        some (rs ++ (List.range N).map
          (fun i => ((simBody num log u)^[i + 1] s).pos + num.innerRadius)) := by
  intro n
  induction n with
  | zero =>
    intro N s rs hN _ hstop
    have h0 : N = 0 := Nat.le_zero.mp hN
    subst h0
    simp only [Function.iterate_zero, id_eq] at hstop
    simp [simRadiiLoop, hstop]
  | succ n ih =>
    intro N s rs hN hall hstop
    cases N with
    | zero =>
      simp only [Function.iterate_zero, id_eq] at hstop
      simp [simRadiiLoop, hstop]
    | succ N =>
      have hg : simGuard num s = true := by
        simpa using hall 0 (Nat.succ_pos N)
      have hrec := ih N (simBody num log u s)
        (rs ++ [(simBody num log u s).pos + num.innerRadius]) (Nat.le_of_succ_le_succ hN)
        (fun i hi => by
          have := hall (i + 1) (Nat.succ_lt_succ hi)
          rwa [Function.iterate_succ_apply] at this)
        (by rwa [Function.iterate_succ_apply] at hstop)
      simp only [simRadiiLoop, hg, if_true]
      rw [hrec, List.range_succ_eq_map, List.map_cons, List.map_map, List.append_assoc]
      rfl

theorem simRadiiLoop_isSome (num : consts) (log : ℚ → ℚ) (u : ℚ) :
    ∀ (n : Nat) (s : SimState) (rs : List ℚ),
      (simRadiiLoop num log u n s rs).isSome = (simLoop num log u n s).isSome := by
  intro n
  induction n with
  | zero =>
    intro s rs
    by_cases hg : simGuard num s = true
    · simp [simRadiiLoop, simLoop, hg]
    · simp [simRadiiLoop, simLoop, hg]
  | succ n ih =>
    intro s rs
    by_cases hg : simGuard num s = true
    · simp only [simRadiiLoop, simLoop, hg, if_true]
      exact ih _ _
    · simp [simRadiiLoop, simLoop, hg]

/-- The calls of a run with `N` iterations are made at the positions after
`0, 1, …, N` updates, each offset by `innerRadius`. -/
theorem SimulationRadii_eq_some (num : consts) (log : ℚ → ℚ) (u : ℚ) (fuel : Nat)
    (rs : List ℚ) (h : SimulationRadii num log u fuel = some rs) :
    ∃ N, N ≤ fuel ∧ IterationCount num log u N ∧
      rs = (List.range N).map (fun i => (simStateAt num log u i).pos + num.innerRadius) ++
        [(simStateAt num log u N).pos + num.innerRadius] := by
  have hs : (simLoop num log u fuel (simInit num log u)).isSome = true := by
    rw [← simRadiiLoop_isSome num log u fuel _ [num.startPosition + num.innerRadius]]
    unfold SimulationRadii at h
    rw [h]; rfl
  obtain ⟨r, hr⟩ := Option.isSome_iff_exists.mp hs
  obtain ⟨N, hN, hall, hstop, _⟩ := (simLoop_eq_some_iff num log u fuel _ r).mp hr
  refine ⟨N, hN, ⟨hall, hstop⟩, ?_⟩
  have := simRadiiLoop_of_count num log u fuel N (simInit num log u)
    [num.startPosition + num.innerRadius] hN hall hstop
  unfold SimulationRadii at h
  rw [h] at this
  rw [Option.some.inj this]
  have e1 : (List.range N).map (fun i => (simStateAt num log u i).pos + num.innerRadius) ++
      [(simStateAt num log u N).pos + num.innerRadius] =
      (List.range (N + 1)).map (fun i => (simStateAt num log u i).pos + num.innerRadius) := by
    rw [List.range_succ, List.map_append]; rfl
  rw [e1, List.range_succ_eq_map, List.map_cons, List.map_map]
  rfl

theorem logApprox_pos : ∀ x : ℚ, 1 < x → 0 < logApprox x := by
  intro x hx
  unfold logApprox
  have h1 : 0 < x ^ 2 - 1 := by nlinarith
  have h2 : 0 < x ^ 2 + 4 * x + 1 := by nlinarith
  positivity

/-! ## Shape of the trajectory for a voltage `≥ 0` -/

/-- While the particle has stayed off the wall, its speed towards the wall is
non-negative, and so is its acceleration when it is off the wall now. -/
theorem simStateAt_nonneg (num : consts) (log : ℚ → ℚ) (u : ℚ)
    (hq : 0 < num.eCharge) (hm : 0 < num.eMass)
    (hL : 0 < log (num.outerRadius / num.innerRadius)) (hin : 0 < num.innerRadius)
    (hdt : 0 < num.dt) (hu : 0 ≤ u) :
    ∀ i : Nat, (∀ j, j < i → 0 < (simStateAt num log u j).pos) →
      0 ≤ (simStateAt num log u i).speedOnYAxis ∧
      (0 < (simStateAt num log u i).pos → 0 ≤ (simStateAt num log u i).a) := by
  intro i
  induction i with
  | zero =>
    intro _
    refine ⟨le_refl _, fun hp => ?_⟩
    have hp' : 0 < num.startPosition := hp
    exact accel_nonneg num log u _ hq hm hL hu (add_pos hp' hin)
  | succ i ih =>
    intro hall
    have hpi : 0 < (simStateAt num log u i).pos := hall i (Nat.lt_succ_self i)
    obtain ⟨hv, ha⟩ := ih (fun j hj => hall j (Nat.lt_succ_of_lt hj))
    have ha' := ha hpi
    rw [simStateAt_succ]
    refine ⟨?_, fun hp => ?_⟩
    · rw [simBody_speed]
      split
      · exact add_nonneg hv (mul_nonneg ha' hdt.le)
      · exact le_refl _
    · rw [simBody_a]
      exact accel_nonneg num log u _ hq hm hL hu (add_pos hp hin)

/-- One update does not increase the position, and does not decrease the speed
when the particle stays off the wall. -/
theorem simStateAt_step (num : consts) (log : ℚ → ℚ) (u : ℚ)
    (hq : 0 < num.eCharge) (hm : 0 < num.eMass)
    (hL : 0 < log (num.outerRadius / num.innerRadius)) (hin : 0 < num.innerRadius)
    (hdt : 0 < num.dt) (hu : 0 ≤ u) (i : Nat)
    (hall : ∀ j, j ≤ i → 0 < (simStateAt num log u j).pos) :
    (simStateAt num log u (i + 1)).pos ≤ (simStateAt num log u i).pos ∧
    (0 < (simStateAt num log u (i + 1)).pos →
      (simStateAt num log u i).speedOnYAxis ≤ (simStateAt num log u (i + 1)).speedOnYAxis) := by
  obtain ⟨hv, ha⟩ := simStateAt_nonneg num log u hq hm hL hin hdt hu i
    (fun j hj => hall j (Nat.le_of_lt hj))
  have ha' := ha (hall i (le_refl _))
  rw [simStateAt_succ]
  have h1 : 0 ≤ (simStateAt num log u i).speedOnYAxis * num.dt := mul_nonneg hv hdt.le
  have h2 : 0 ≤ (simStateAt num log u i).a * num.dt ^ 2 / 2 :=
    div_nonneg (mul_nonneg ha' (sq_nonneg _)) (by norm_num)
  refine ⟨?_, fun hp => ?_⟩
  · rw [simBody_pos]; linarith
  · rw [simBody_speed, if_pos hp]
    have : 0 ≤ (simStateAt num log u i).a * num.dt := mul_nonneg ha' hdt.le
    linarith

/-- Along the recorded part of a run (all positions `> 0`) the position is
non-increasing and the speed non-decreasing in the step number. -/
theorem simStateAt_monotone (num : consts) (log : ℚ → ℚ) (u : ℚ)
    (hq : 0 < num.eCharge) (hm : 0 < num.eMass)
    (hL : 0 < log (num.outerRadius / num.innerRadius)) (hin : 0 < num.innerRadius)
    (hdt : 0 < num.dt) (hu : 0 ≤ u) (N : Nat)
    (hall : ∀ j, j < N → 0 < (simStateAt num log u j).pos) :
    ∀ i j : Nat, i ≤ j → j < N →
      (simStateAt num log u j).pos ≤ (simStateAt num log u i).pos ∧
      (simStateAt num log u i).speedOnYAxis ≤ (simStateAt num log u j).speedOnYAxis := by
  intro i j hij
  induction j, hij using Nat.le_induction with
  | base => intro _; exact ⟨le_refl _, le_refl _⟩
  | succ j _ ih =>
    intro hj
    obtain ⟨hp, hv⟩ := ih (Nat.lt_of_succ_lt hj)
    obtain ⟨hp', hv'⟩ := simStateAt_step num log u hq hm hL hin hdt hu j
      (fun k hk => hall k (lt_of_le_of_lt hk (Nat.lt_of_succ_lt hj)))
    exact ⟨le_trans hp' hp, le_trans hv (hv' (hall (j + 1) hj))⟩

/-- Every acceleration held in the loop state was computed at the current
position offset by `innerRadius`. -/
theorem simStateAt_a (num : consts) (log : ℚ → ℚ) (u : ℚ) (i : Nat) :
    (simStateAt num log u i).a =
      CountAccelerationAtDistanceFromAxis num log u
        ((simStateAt num log u i).pos + num.innerRadius) := by
  cases i with
  | zero => rfl
  | succ i => rw [simStateAt_succ, simBody_a]

theorem IterationCount_pos (num : consts) (log : ℚ → ℚ) (u : ℚ) (N : Nat)
    (hc : IterationCount num log u N) :
    ∀ j, j < N → 0 < (simStateAt num log u j).pos :=
  fun j hj => ((simGuard_true_iff num _).mp (hc.1 j hj)).1

/-! ## Outcomes of the simulation as the search sees them -/

theorem not_Survives_of_HitsWall (num : consts) (log : ℚ → ℚ) (f g : ℚ → Nat) (u : ℚ)
    (hh : HitsWall (SimulationWith num log f) u) :
    ¬ Survives (SimulationWith num log g) u := by
  rintro ⟨q, hq, hq0⟩
  obtain ⟨p, hp, hp0⟩ := hh
  have := Simulation_fuel_unique num log u _ _ p q hp hq
  linarith

theorem SimulationWith_isSome (num : consts) (log : ℚ → ℚ) (u : ℚ)
    (hs : 0 < num.startSpeed) (hdt : 0 < num.dt) :
    (SimulationWith num log (fun _ => transitSteps num) u).isSome = true := by
  obtain ⟨N, _, _, h⟩ := Simulation_terminates num log u hs hdt
  unfold SimulationWith
  rw [h]; rfl

theorem Survives_or_HitsWall (num : consts) (log : ℚ → ℚ) (u : ℚ)
    (hs : 0 < num.startSpeed) (hdt : 0 < num.dt) :
    Survives (SimulationWith num log (fun _ => transitSteps num)) u ∨
      HitsWall (SimulationWith num log (fun _ => transitSteps num)) u := by
  obtain ⟨p, hp⟩ := Option.isSome_iff_exists.mp (SimulationWith_isSome num log u hs hdt)
  rcases lt_or_le 0 p with h | h
  · exact Or.inl ⟨p, hp, h⟩
  · exact Or.inr ⟨p, hp, h⟩

/-- The wall-hit outcome is monotone in the voltage on `0 ≤ u₁ ≤ u₂`. -/
theorem HitsWall_mono (num : consts) (log : ℚ → ℚ) (u₁ u₂ : ℚ) (hv : validConsts num)
    (hlog : ∀ x, 1 < x → 0 < log x) (hu : 0 ≤ u₁) (hu₂ : u₁ ≤ u₂)
    (hh : HitsWall (SimulationWith num log (fun _ => transitSteps num)) u₁) :
    HitsWall (SimulationWith num log (fun _ => transitSteps num)) u₂ := by
  obtain ⟨hq, hm, hin, hout, hs, _, hdt, _⟩ := hv
  have hL := logRatio_pos num log hin hout hlog
  obtain ⟨p, hp, hp0⟩ := hh
  obtain ⟨N₁, _, hc₁, hp₁⟩ := (Simulation_eq_some_iff num log u₁ _ p).mp hp
  obtain ⟨N₂, _, hc₂, h₂⟩ := Simulation_terminates num log u₂ hs hdt
  refine ⟨_, h₂, ?_⟩
  exact wallHit_mono num log u₁ u₂ N₁ N₂ hq hm hL hin hdt hu hu₂ hc₁ hc₂ (hp₁ ▸ hp0)

/-- For a voltage `≤ 0` the particle survives. -/
theorem Survives_of_nonpos (num : consts) (log : ℚ → ℚ) (u : ℚ) (hv : validConsts num)
    (hlog : ∀ x, 1 < x → 0 < log x) (hu : u ≤ 0) :
    Survives (SimulationWith num log (fun _ => transitSteps num)) u := by
  obtain ⟨hq, hm, hin, hout, hs, _, hdt, hp⟩ := hv
  have hL := logRatio_pos num log hin hout hlog
  obtain ⟨N, _, _, h⟩ := Simulation_terminates num log u hs hdt
  refine ⟨_, h, ?_⟩
  exact lt_of_lt_of_le hp (simStateAt_nonpos_voltage num log u hq hm hL hin hdt hp hu N).2.2

theorem validConsts_twoStep : validConsts twoStep := by
  unfold validConsts twoStep
  norm_num

theorem validConsts_scenario : validConsts scenario := by
  unfold validConsts scenario mainConsts
  norm_num

/-! ## The claims -/

/-- C1. Bracket invariant and accuracy of `FindMinimumPotentialDifference`: when
every call of `Simulation` returns, `Simulation(0) > 0` and
`Simulation(1000) ≤ 0`, the loop head is reached after each of `0, …, 27`
iterations with `Simulation(leftBoard) > 0` and `Simulation(rightBoard) ≤ 0`,
and the search returns a value `v` with `Simulation(v) ≤ 0` for which some `w`
with `v - 1e-5 ≤ w < v` has `Simulation(w) > 0`. -/
theorem bracket_invariant_and_accuracy (num : consts) (log : ℚ → ℚ) (simFuel : ℚ → Nat)
    (hterm : ∀ u, (SimulationWith num log simFuel u).isSome)
    (h0 : Survives (SimulationWith num log simFuel) 0)
    (h1000 : HitsWall (SimulationWith num log simFuel) 1000) :
    (∀ k, k ≤ 27 → ∃ b, findBracket (SimulationWith num log simFuel) k = some b ∧
      Survives (SimulationWith num log simFuel) b.1 ∧
      HitsWall (SimulationWith num log simFuel) b.2) ∧
    ∃ v, (∀ fuel, 27 ≤ fuel → FindMinimumPotentialDifference num log simFuel fuel = some v) ∧
      HitsWall (SimulationWith num log simFuel) v ∧
      ∃ w, v - 1 / 100000 ≤ w ∧ w < v ∧ Survives (SimulationWith num log simFuel) w := by
  constructor
  · intro k hk
    obtain ⟨b, hb⟩ := findBracket_exists _ hterm k hk
    exact ⟨b, hb, findBracket_invariant _ h0 h1000 k b hb⟩
  · obtain ⟨b, hb, hw, hret⟩ := findLoop_returns _ hterm
    obtain ⟨hl, hr⟩ := findBracket_invariant _ h0 h1000 27 b hb
    obtain ⟨_, hlt, _⟩ := findBracket_range _ 27 b hb
    refine ⟨b.2, hret, hr, b.1, ?_, hlt, hl⟩
    have : (1000 : ℚ) / 2 ^ 27 ≤ 1 / 100000 := by norm_num
    linarith

/-- Witness of C1: the scenario of the specification, each call of `Simulation` running with
fuel `1001`. -/
theorem bracket_invariant_and_accuracy_witness :
    (∀ k, k ≤ 27 → ∃ b, findBracket (SimulationWith scenario logApprox (fun _ => 1001)) k = some b ∧
      Survives (SimulationWith scenario logApprox (fun _ => 1001)) b.1 ∧
      HitsWall (SimulationWith scenario logApprox (fun _ => 1001)) b.2) ∧
    ∃ v, (∀ fuel, 27 ≤ fuel →
        FindMinimumPotentialDifference scenario logApprox (fun _ => 1001) fuel = some v) ∧
      HitsWall (SimulationWith scenario logApprox (fun _ => 1001)) v ∧
      ∃ w, v - 1 / 100000 ≤ w ∧ w < v ∧
        Survives (SimulationWith scenario logApprox (fun _ => 1001)) w :=
  bracket_invariant_and_accuracy scenario logApprox (fun _ => 1001)
    (fun u => by
      have h := SimulationWith_isSome scenario logApprox u validConsts_scenario.2.2.2.2.1
        validConsts_scenario.2.2.2.2.2.2.1
      have e : transitSteps scenario = 1001 := by decide!
      rwa [e] at h)
    ⟨1 / 200, by decide!, by norm_num⟩
    ⟨(Simulation scenario logApprox 1000 1001).getD 0, by decide!, by decide!⟩

/-- Counterexample to C2.  The parameters `twoStep` are valid and on them the
simulation is monotone in the voltage (a wall hit at `u1 ≥ 0` gives a wall hit
at every `u2 ≥ u1`).  The search returns `v = 4261125 / 16777216`; with
`eps = 1.1e-5`, just above the tolerance, the particle survives at `v - eps`
and hits the wall at `v + eps`, the reverse of what the claim states. -/
theorem convergence_sides_counterexample :
    validConsts twoStep ∧
    (∀ u1 u2 : ℚ, 0 ≤ u1 → u1 ≤ u2 →
      HitsWall (SimulationWith twoStep logApprox (fun _ => 2)) u1 →
      HitsWall (SimulationWith twoStep logApprox (fun _ => 2)) u2) ∧
    FindMinimumPotentialDifference twoStep logApprox (fun _ => 2) 27
      = some (4261125 / 16777216) ∧
    Survives (SimulationWith twoStep logApprox (fun _ => 2)) (4261125 / 16777216 - 11 / 1000000) ∧
    HitsWall (SimulationWith twoStep logApprox (fun _ => 2)) (4261125 / 16777216 + 11 / 1000000) ∧
    ¬ (HitsWall (SimulationWith twoStep logApprox (fun _ => 2))
          (4261125 / 16777216 - 11 / 1000000) ∧
        Survives (SimulationWith twoStep logApprox (fun _ => 2))
          (4261125 / 16777216 + 11 / 1000000)) := by
  have hS : Survives (SimulationWith twoStep logApprox (fun _ => 2))
      (4261125 / 16777216 - 11 / 1000000) :=
    ⟨(Simulation twoStep logApprox (4261125 / 16777216 - 11 / 1000000) 2).getD 0,
      by decide!, by decide!⟩
  have hH : HitsWall (SimulationWith twoStep logApprox (fun _ => 2))
      (4261125 / 16777216 + 11 / 1000000) :=
    ⟨(Simulation twoStep logApprox (4261125 / 16777216 + 11 / 1000000) 2).getD 0,
      by decide!, by decide!⟩
  have hfuel : transitSteps twoStep = 2 := by decide!
  refine ⟨validConsts_twoStep, ?_, by decide!, hS, hH, ?_⟩
  · intro u1 u2 h0 h12 h
    have := HitsWall_mono twoStep logApprox u1 u2 validConsts_twoStep logApprox_pos h0 h12
    rw [hfuel] at this
    exact this h
  · rintro ⟨_, h⟩
    exact not_Survives_of_HitsWall twoStep logApprox _ _ _ hH h

/-- C2, amended.  For valid parameters with `Simulation(1000) ≤ 0` the search
returns a value `v*` with `0 < v* ≤ 1000` that lies on the wall-hit side:
`Simulation(v*) ≤ 0`, and for every `eps` above the tolerance `1e-5` the
particle survives at `v* - eps` (`Simulation(v* - eps) > 0`) and hits the wall
at `v* + eps` (`Simulation(v* + eps) ≤ 0`). -/
theorem convergence_to_wall_hit_side (num : consts) (log : ℚ → ℚ) (hv : validConsts num)
    (hlog : ∀ x, 1 < x → 0 < log x)
    (h1000 : HitsWall (SimulationWith num log (fun _ => transitSteps num)) 1000) :
    ∃ v, (∀ fuel, 27 ≤ fuel →
        FindMinimumPotentialDifference num log (fun _ => transitSteps num) fuel = some v) ∧
      0 < v ∧ v ≤ 1000 ∧
      HitsWall (SimulationWith num log (fun _ => transitSteps num)) v ∧
      ∀ eps : ℚ, 1 / 100000 < eps →
        Survives (SimulationWith num log (fun _ => transitSteps num)) (v - eps) ∧
        HitsWall (SimulationWith num log (fun _ => transitSteps num)) (v + eps) := by
  have hs : 0 < num.startSpeed := hv.2.2.2.2.1
  have hdt : 0 < num.dt := hv.2.2.2.2.2.2.1
  have hterm := fun u => SimulationWith_isSome num log u hs hdt
  have h0 := Survives_of_nonpos num log 0 hv hlog (le_refl _)
  obtain ⟨b, hb, hw, hret⟩ := findLoop_returns _ hterm
  obtain ⟨hl, hr⟩ := findBracket_invariant _ h0 h1000 27 b hb
  obtain ⟨hl0, hlt, hr1⟩ := findBracket_range _ 27 b hb
  refine ⟨b.2, hret, lt_of_le_of_lt hl0 hlt, hr1, hr, ?_⟩
  intro eps heps
  have hsmall : (1000 : ℚ) / 2 ^ 27 ≤ 1 / 100000 := by norm_num
  constructor
  · rcases le_or_lt (b.2 - eps) 0 with hneg | hpos
    · exact Survives_of_nonpos num log _ hv hlog hneg
    · rcases Survives_or_HitsWall num log (b.2 - eps) hs hdt with h | h
      · exact h
      · have hmono := HitsWall_mono num log (b.2 - eps) b.1 hv hlog hpos.le (by linarith) h
        exact absurd hl (not_Survives_of_HitsWall num log _ _ _ hmono)
  · exact HitsWall_mono num log b.2 (b.2 + eps) hv hlog (lt_of_le_of_lt hl0 hlt).le
      (by linarith) hr

/-- Witness of C2 (amended) on the scenario of the specification. -/
theorem convergence_to_wall_hit_side_witness :
    ∃ v, (∀ fuel, 27 ≤ fuel →
        FindMinimumPotentialDifference scenario logApprox (fun _ => transitSteps scenario) fuel
          = some v) ∧
      0 < v ∧ v ≤ 1000 ∧
      HitsWall (SimulationWith scenario logApprox (fun _ => transitSteps scenario)) v ∧
      ∀ eps : ℚ, 1 / 100000 < eps →
        Survives (SimulationWith scenario logApprox (fun _ => transitSteps scenario)) (v - eps) ∧
        HitsWall (SimulationWith scenario logApprox (fun _ => transitSteps scenario)) (v + eps) :=
  convergence_to_wall_hit_side scenario logApprox validConsts_scenario logApprox_pos
    ⟨(Simulation scenario logApprox 1000 (transitSteps scenario)).getD 0, by decide!, by decide!⟩

/-- Counterexample to C3.  On the scenario parameters (`innerRadius = 0.01`,
`outerRadius = 0.02`, `startSpeed = 1e6`, `length = 0.1`, with the `dt` and
`startPosition` that `main` derives) `Simulation(0.0)` returns `0.005`, which
is not `≤ 0`. -/
theorem zero_voltage_counterexample :
    validConsts scenario ∧ Simulation scenario logApprox 0 1001 = some (1 / 200) ∧
      ¬ ((1 : ℚ) / 200 ≤ 0) := by
  refine ⟨validConsts_scenario, by decide!, by norm_num⟩

/-- Counterexample to C4.  On the scenario parameters the particle survives at
`u1 = 0` and does not survive at `u2 = 1000 ≥ u1`. -/
theorem survival_monotone_counterexample :
    validConsts scenario ∧ (0 : ℚ) ≤ 0 ∧ (0 : ℚ) ≤ 1000 ∧
    Survives (SimulationWith scenario logApprox (fun _ => 1001)) 0 ∧
    HitsWall (SimulationWith scenario logApprox (fun _ => 1001)) 1000 ∧
    ¬ (Survives (SimulationWith scenario logApprox (fun _ => 1001)) 0 →
        Survives (SimulationWith scenario logApprox (fun _ => 1001)) 1000) := by
  have h0 : Survives (SimulationWith scenario logApprox (fun _ => 1001)) 0 :=
    ⟨1 / 200, by decide!, by norm_num⟩
  have h1 : HitsWall (SimulationWith scenario logApprox (fun _ => 1001)) 1000 :=
    ⟨(Simulation scenario logApprox 1000 1001).getD 0, by decide!, by decide!⟩
  refine ⟨validConsts_scenario, le_refl _, by norm_num, h0, h1, ?_⟩
  intro h
  exact not_Survives_of_HitsWall scenario logApprox _ _ _ h1 (h h0)

/-- C4, amended.  Monotonicity of the simulation in voltage, in the direction
the code has: for valid parameters and voltages `0 ≤ u1 ≤ u2` both runs return,
and if the particle survives at `u2` (`Simulation(u2) > 0`) then it survives at
`u1` (`Simulation(u1) > 0`); increasing the voltage makes survival less likely. -/
theorem survival_antitone (num : consts) (log : ℚ → ℚ) (u1 u2 : ℚ) (hv : validConsts num)
    (hlog : ∀ x, 1 < x → 0 < log x) (hu : 0 ≤ u1) (hu2 : u1 ≤ u2) :
    ∃ p1 p2, Simulation num log u1 (transitSteps num) = some p1 ∧
      Simulation num log u2 (transitSteps num) = some p2 ∧ (0 < p2 → 0 < p1) := by
  have hs : 0 < num.startSpeed := hv.2.2.2.2.1
  have hdt : 0 < num.dt := hv.2.2.2.2.2.2.1
  obtain ⟨p1, h1⟩ := Option.isSome_iff_exists.mp (SimulationWith_isSome num log u1 hs hdt)
  obtain ⟨p2, h2⟩ := Option.isSome_iff_exists.mp (SimulationWith_isSome num log u2 hs hdt)
  refine ⟨p1, p2, h1, h2, fun hp2 => ?_⟩
  by_contra hcon
  have hh : HitsWall (SimulationWith num log (fun _ => transitSteps num)) u1 :=
    ⟨p1, h1, le_of_not_gt hcon⟩
  have hm := HitsWall_mono num log u1 u2 hv hlog hu hu2 hh
  exact not_Survives_of_HitsWall num log _ (fun _ => transitSteps num) u2 hm ⟨p2, h2, hp2⟩

/-- Witness of C4 (amended): the parameters `twoStep` at the voltages `1/10` and
`1/5`, at both of which the particle survives. -/
theorem survival_antitone_witness :
    ∃ p1 p2, Simulation twoStep logApprox (1 / 10) (transitSteps twoStep) = some p1 ∧
      Simulation twoStep logApprox (1 / 5) (transitSteps twoStep) = some p2 ∧
      (0 < p2 → 0 < p1) :=
  survival_antitone twoStep logApprox (1 / 10) (1 / 5) validConsts_twoStep logApprox_pos
    (by norm_num) (by norm_num)

/-- C5. Termination of the bisection over exact arithmetic, for every outcome
of the calls of `Simulation`: the bracket after `k` iterations has width
`1000 / 2 ^ k` for `k = 0, …, 27`, the loop stops after exactly 27 iterations
(the guard fails at the 27th loop head, 26 iterations do not suffice), 27 is
`⌈log2 (1000 / 1e-5)⌉`, and `Simulation` is called exactly 27 times. -/
theorem bisection_stops_after_27 (sim : ℚ → ℚ) :
    (∀ k, k ≤ 27 → ∃ b, findBracket (fun u => some (sim u)) k = some b ∧
      b.2 - b.1 = 1000 / 2 ^ k) ∧
    findBracket (fun u => some (sim u)) 28 = none ∧
    findLoop (fun u => some (sim u)) 26 (0, 1000) = none ∧
    (∃ v calls, findLoopCalls (fun u => some (sim u)) 27 (0, 1000) [] = some (v, calls) ∧
      calls.length = 27 ∧
      ∀ fuel, 27 ≤ fuel → findLoop (fun u => some (sim u)) fuel (0, 1000) = some v) ∧
    Nat.clog 2 (1000 * 100000) = 27 := by
  have hsim : ∀ u, ((fun u => some (sim u)) u).isSome := fun u => rfl
  obtain ⟨b, hb, hw, hret⟩ := findLoop_returns (fun u => some (sim u)) hsim
  refine ⟨?_, ?_, ?_, ?_, ?_⟩
  · intro k hk
    obtain ⟨b', hb'⟩ := findBracket_exists _ hsim k hk
    exact ⟨b', hb', findBracket_width _ k b' hb'⟩
  · exact findBracket_stop _ 27 b hb (by rw [hw]; norm_num)
  · obtain ⟨b', hb'⟩ := findBracket_exists _ hsim 26 (by norm_num)
    have h := findLoop_of_findBracket _ 26 0 b' hb'
    rw [Nat.zero_add] at h
    rw [h]
    have hg : b'.2 - b'.1 > 1 / 100000 := by
      rw [findBracket_width _ 26 b' hb']; norm_num
    simp only [findLoop, if_pos hg]
  · have h27 := hret 27 (le_refl _)
    rw [← findLoopCalls_fst _ 27 (0, 1000) []] at h27
    cases hc : findLoopCalls (fun u => some (sim u)) 27 (0, 1000) [] with
    | none => rw [hc] at h27; exact absurd h27 (by simp)
    | some r =>
      rw [hc] at h27
      have hv : r.1 = b.2 := by simpa using h27
      have hlen := findLoopCalls_length _ 27 0 (0, 1000) [] r (by norm_num) (by norm_num) hc
      refine ⟨r.1, r.2, rfl, by simpa using hlen, ?_⟩
      rw [hv]
      exact hret
  · apply le_antisymm
    · exact (Nat.le_pow_iff_clog_le (by norm_num)).mp (by norm_num)
    · exact (Nat.pow_lt_iff_lt_clog (by norm_num)).mp (by norm_num)

/-- Counterexample to C6.  On the scenario parameters at the voltage `1e6` the
first update takes the particle beyond the axis offset: `Simulation` calls
`CountAccelerationAtDistanceFromAxis` at the radial distances `3/200` and then
`-2633/37800`, which is not strictly positive. -/
theorem radial_distance_counterexample :
    validConsts scenario ∧
    SimulationRadii scenario logApprox 1000000 1001 = some [3 / 200, -2633 / 37800] ∧
    ¬ (0 < (-2633 : ℚ) / 37800) := by
  refine ⟨validConsts_scenario, by decide!, by norm_num⟩

/-- C6, amended.  For `innerRadius > 0` and `startPosition > 0` and every
voltage, a run of `Simulation` that returns `p` calls
`CountAccelerationAtDistanceFromAxis` first at `startPosition + innerRadius > 0`;
every call but the last passes a strictly positive radial distance (the
position was `> 0` when it was made); the last call passes `p + innerRadius`,
so all calls pass a strictly positive radial distance when `p > 0`.  Every
acceleration that `SimulationForGraphics` records was computed at the recorded
position offset by `innerRadius`, a strictly positive radial distance. -/
theorem radial_distance_positive_before_last (num : consts) (log : ℚ → ℚ) (u : ℚ) (fuel : Nat)
    (rs : List ℚ) (hin : 0 < num.innerRadius) (hp : 0 < num.startPosition)
    (h : SimulationRadii num log u fuel = some rs) :
    ∃ p, Simulation num log u fuel = some p ∧
      rs.head? = some (num.startPosition + num.innerRadius) ∧
      0 < num.startPosition + num.innerRadius ∧
      rs.getLast? = some (p + num.innerRadius) ∧
      (∀ r, r ∈ rs.dropLast → 0 < r) ∧
      (0 < p → ∀ r, r ∈ rs → 0 < r) ∧
      ∀ g, SimulationForGraphics num log u fuel = some g →
        g.aVals = g.yVals.map
          (fun y => CountAccelerationAtDistanceFromAxis num log u (y + num.innerRadius)) ∧
        ∀ y, y ∈ g.yVals → 0 < y + num.innerRadius := by
  obtain ⟨N, hN, hc, hrs⟩ := SimulationRadii_eq_some num log u fuel rs h
  have hpos := IterationCount_pos num log u N hc
  have hdrop : ∀ r, r ∈ rs.dropLast → 0 < r := by
    intro r hr
    rw [hrs, List.dropLast_concat, List.mem_map] at hr
    obtain ⟨i, hi, rfl⟩ := hr
    exact add_pos (hpos i (List.mem_range.mp hi)) hin
  refine ⟨(simStateAt num log u N).pos,
    (Simulation_eq_some_iff num log u fuel _).mpr ⟨N, hN, hc, rfl⟩, ?_, add_pos hp hin, ?_,
    hdrop, ?_, ?_⟩
  · rw [hrs]
    cases N with
    | zero => rfl
    | succ N => rw [List.range_succ_eq_map]; rfl
  · rw [hrs, List.getLast?_concat]
  · intro hp0 r hr
    rw [hrs, List.mem_append, List.mem_singleton] at hr
    rcases hr with hr | hr
    · apply hdrop
      rw [hrs, List.dropLast_concat]
      exact hr
    · rw [hr]
      exact add_pos hp0 hin
  · intro g hg
    obtain ⟨M, _, hcM, hgM⟩ := SimulationForGraphics_eq_some num log u fuel g hg
    have hposM := IterationCount_pos num log u M hcM
    subst hgM
    constructor
    · simp only [samples, List.map_map]
      apply List.map_congr_left
      intro i _
      exact simStateAt_a num log u i
    · intro y hy
      simp only [samples, List.mem_map] at hy
      obtain ⟨i, hi, rfl⟩ := hy
      exact add_pos (hposM i (List.mem_range.mp hi)) hin

/-- Witness of C6 (amended): the scenario at the voltage `1000`. -/
theorem radial_distance_positive_before_last_witness :
    ∃ p, Simulation scenario logApprox 1000 1001 = some p ∧
      ((SimulationRadii scenario logApprox 1000 1001).getD []).head? =
        some (scenario.startPosition + scenario.innerRadius) ∧
      0 < scenario.startPosition + scenario.innerRadius ∧
      ((SimulationRadii scenario logApprox 1000 1001).getD []).getLast? =
        some (p + scenario.innerRadius) ∧
      (∀ r, r ∈ ((SimulationRadii scenario logApprox 1000 1001).getD []).dropLast → 0 < r) ∧
      (0 < p → ∀ r, r ∈ (SimulationRadii scenario logApprox 1000 1001).getD [] → 0 < r) ∧
      ∀ g, SimulationForGraphics scenario logApprox 1000 1001 = some g →
        g.aVals = g.yVals.map
          (fun y => CountAccelerationAtDistanceFromAxis scenario logApprox 1000
            (y + scenario.innerRadius)) ∧
        ∀ y, y ∈ g.yVals → 0 < y + scenario.innerRadius :=
  radial_distance_positive_before_last scenario logApprox 1000 1001
    ((SimulationRadii scenario logApprox 1000 1001).getD [])
    validConsts_scenario.2.2.1 validConsts_scenario.2.2.2.2.2.2.2 (by decide!)

theorem samples_length (num : consts) (log : ℚ → ℚ) (u : ℚ) (N : Nat) :
    (samples num log u N).xVals.length = N ∧ (samples num log u N).tVals.length = N ∧
    (samples num log u N).yVals.length = N ∧ (samples num log u N).aVals.length = N ∧
    (samples num log u N).vVals.length = N := by
  simp [samples]

/-- C9. Trajectory shape: for `eCharge, eMass > 0`, `outerRadius > innerRadius > 0`,
`dt > 0`, `startPosition > 0` and every voltage `≥ 0`, the `pos` sequence
recorded by `SimulationForGraphics` is non-increasing, no sample has `pos`
greater than `startPosition`, and the recorded `vy` sequence is non-negative
and non-decreasing. -/
theorem trajectory_shape (num : consts) (log : ℚ → ℚ) (u : ℚ) (fuel : Nat) (g : Graphics)
    (hq : 0 < num.eCharge) (hm : 0 < num.eMass) (hin : 0 < num.innerRadius)
    (hout : num.innerRadius < num.outerRadius) (hdt : 0 < num.dt)
    (hlog : ∀ x, 1 < x → 0 < log x) (hu : 0 ≤ u)
    (h : SimulationForGraphics num log u fuel = some g) :
    List.Sorted (fun x y => y ≤ x) g.yVals ∧ (∀ y, y ∈ g.yVals → y ≤ num.startPosition) ∧
    List.Sorted (fun x y => x ≤ y) g.vVals ∧ (∀ v, v ∈ g.vVals → 0 ≤ v) := by
  have hL := logRatio_pos num log hin hout hlog
  obtain ⟨N, _, hc, rfl⟩ := SimulationForGraphics_eq_some num log u fuel g h
  have hpos := IterationCount_pos num log u N hc
  have hmono := simStateAt_monotone num log u hq hm hL hin hdt hu N hpos
  refine ⟨?_, ?_, ?_, ?_⟩
  · unfold List.Sorted
    simp only [samples]
    rw [List.pairwise_map]
    exact (List.pairwise_lt_range N).imp_of_mem
      (fun _ hb hab => (hmono _ _ (Nat.le_of_lt hab) (List.mem_range.mp hb)).1)
  · intro y hy
    simp only [samples, List.mem_map] at hy
    obtain ⟨i, hi, rfl⟩ := hy
    exact (hmono 0 i (Nat.zero_le i) (List.mem_range.mp hi)).1
  · unfold List.Sorted
    simp only [samples]
    rw [List.pairwise_map]
    exact (List.pairwise_lt_range N).imp_of_mem
      (fun _ hb hab => (hmono _ _ (Nat.le_of_lt hab) (List.mem_range.mp hb)).2)
  · intro v hv
    simp only [samples, List.mem_map] at hv
    obtain ⟨i, hi, rfl⟩ := hv
    exact (hmono 0 i (Nat.zero_le i) (List.mem_range.mp hi)).2

/-- Witness of C9: the scenario at the voltage `1000` (eight recorded samples). -/
theorem trajectory_shape_witness :
    List.Sorted (fun x y => y ≤ x)
      ((SimulationForGraphics scenario logApprox 1000 1001).getD ⟨[], [], [], [], []⟩).yVals ∧
    (∀ y, y ∈ ((SimulationForGraphics scenario logApprox 1000 1001).getD
      ⟨[], [], [], [], []⟩).yVals → y ≤ scenario.startPosition) ∧
    List.Sorted (fun x y => x ≤ y)
      ((SimulationForGraphics scenario logApprox 1000 1001).getD ⟨[], [], [], [], []⟩).vVals ∧
    (∀ v, v ∈ ((SimulationForGraphics scenario logApprox 1000 1001).getD
      ⟨[], [], [], [], []⟩).vVals → 0 ≤ v) :=
  trajectory_shape scenario logApprox 1000 1001
    ((SimulationForGraphics scenario logApprox 1000 1001).getD ⟨[], [], [], [], []⟩)
    validConsts_scenario.1 validConsts_scenario.2.1 validConsts_scenario.2.2.1
    validConsts_scenario.2.2.2.1 validConsts_scenario.2.2.2.2.2.2.1 logApprox_pos
    (by norm_num) (by decide!)

/-! ## Independence of the logarithm up to a rescaling of the voltage -/

/-- The logarithm enters the acceleration only as a rescaling of the voltage. -/
theorem accel_scale (num : consts) (log : ℚ → ℚ) (u r : ℚ) :
    CountAccelerationAtDistanceFromAxis num log u r =
      CountAccelerationAtDistanceFromAxis num (fun _ => 1)
        (u / log (num.outerRadius / num.innerRadius)) r := by
  unfold CountAccelerationAtDistanceFromAxis
  rw [mul_one, ← mul_div_assoc, div_div,
    mul_comm (log (num.outerRadius / num.innerRadius)) (num.eMass * r)]

theorem simBody_congr (num : consts) (log₁ log₂ : ℚ → ℚ) (u₁ u₂ : ℚ)
    (h : ∀ r, CountAccelerationAtDistanceFromAxis num log₁ u₁ r =
      CountAccelerationAtDistanceFromAxis num log₂ u₂ r) (s : SimState) :
    simBody num log₁ u₁ s = simBody num log₂ u₂ s := by
  unfold simBody
  simp only [h]

theorem simLoop_congr (num : consts) (log₁ log₂ : ℚ → ℚ) (u₁ u₂ : ℚ)
    (h : ∀ r, CountAccelerationAtDistanceFromAxis num log₁ u₁ r =
      CountAccelerationAtDistanceFromAxis num log₂ u₂ r) :
    ∀ (n : Nat) (s : SimState), simLoop num log₁ u₁ n s = simLoop num log₂ u₂ n s := by
  intro n
  induction n with
  | zero => intro s; rfl
  | succ n ih =>
    intro s
    rw [simLoop_succ, simLoop_succ, simBody_congr num log₁ log₂ u₁ u₂ h, ih]

/-- Two runs whose acceleration functions agree return the same position. -/
theorem Simulation_congr (num : consts) (log₁ log₂ : ℚ → ℚ) (u₁ u₂ : ℚ)
    (h : ∀ r, CountAccelerationAtDistanceFromAxis num log₁ u₁ r =
      CountAccelerationAtDistanceFromAxis num log₂ u₂ r) (fuel : Nat) :
    Simulation num log₁ u₁ fuel = Simulation num log₂ u₂ fuel := by
  unfold Simulation
  have hi : simInit num log₁ u₁ = simInit num log₂ u₂ := by
    unfold simInit
    rw [h]
  rw [hi, simLoop_congr num log₁ log₂ u₁ u₂ h]

/-- The value returned by the bisection loop is at most the right end it starts from. -/
theorem findLoop_le (sim : ℚ → Option ℚ) :
    ∀ (fuel : Nat) (b : ℚ × ℚ) (v : ℚ), b.1 ≤ b.2 → findLoop sim fuel b = some v → v ≤ b.2 := by
  intro fuel
  induction fuel with
  | zero =>
    intro b v _ h
    by_cases hg : b.2 - b.1 > 1 / 100000
    · simp only [findLoop, if_pos hg] at h
      exact absurd h (by simp)
    · simp only [findLoop, if_neg hg, Option.some.injEq] at h
      exact le_of_eq h.symm
  | succ fuel ih =>
    intro b v hb h
    by_cases hg : b.2 - b.1 > 1 / 100000
    · simp only [findLoop, if_pos hg] at h
      cases hbody : findBody sim b with
      | none => simp [hbody] at h
      | some b' =>
        simp only [hbody, Option.some_bind] at h
        rcases findBody_cases sim b b' hbody with ⟨rfl, _⟩ | ⟨rfl, _⟩
        · have h1 : b.1 ≤ (b.1 + b.2) / 2 := by linarith
          have h2 := ih (b.1, (b.1 + b.2) / 2) v h1 h
          have h3 : (b.1 + b.2) / 2 ≤ b.2 := by linarith
          exact le_trans h2 h3
        · have h1 : (b.1 + b.2) / 2 ≤ b.2 := by linarith
          exact ih ((b.1 + b.2) / 2, b.2) v h1 h
    · simp only [findLoop, if_neg hg, Option.some.injEq] at h
      exact le_of_eq h.symm

theorem transitSteps_scenario : transitSteps scenario = 1001 := by decide!

/-- On the scenario, for any logarithm with `0 < log 2 ≤ 1`, the particle hits
the wall at `500` volts, the first voltage the search probes. -/
theorem scenario_HitsWall_500 (log : ℚ → ℚ) (hpos : 0 < log 2) (hle : log 2 ≤ 1) :
    HitsWall (SimulationWith scenario log (fun _ => 1001)) 500 := by
  have hratio : scenario.outerRadius / scenario.innerRadius = 2 := by
    unfold scenario mainConsts
    norm_num
  have h500 : HitsWall (SimulationWith scenario (fun _ => 1) (fun _ => transitSteps scenario))
      500 := by
    rw [transitSteps_scenario]
    exact ⟨(Simulation scenario (fun _ => 1) 500 1001).getD 0, by decide!, by decide!⟩
  have hu : (500 : ℚ) ≤ 500 / log 2 := by
    rw [le_div_iff₀ hpos]
    nlinarith
  have hm := HitsWall_mono scenario (fun _ => 1) 500 (500 / log 2) validConsts_scenario
    (fun _ _ => one_pos) (by norm_num) hu h500
  rw [transitSteps_scenario] at hm
  obtain ⟨p, hp, hp0⟩ := hm
  refine ⟨p, ?_, hp0⟩
  unfold SimulationWith at hp ⊢
  rw [← hp]
  apply Simulation_congr
  intro r
  rw [accel_scale scenario log 500 r, hratio]

theorem findLoop_succ_of_guard (sim : ℚ → Option ℚ) (n : Nat) (b : ℚ × ℚ)
    (hg : b.2 - b.1 > 1 / 100000) :
    findLoop sim (n + 1) b = (findBody sim b).bind (findLoop sim n) := by
  simp only [findLoop, if_pos hg]

/-- When the first probe of the search ends on the wall, the value returned is at most `500`. -/
theorem findLoop_le_500 (sim : ℚ → Option ℚ) (n : Nat) (v : ℚ) (hh : HitsWall sim 500)
    (h : findLoop sim (n + 1) (0, 1000) = some v) : v ≤ 500 := by
  have hg : ((0 : ℚ), (1000 : ℚ)).2 - ((0 : ℚ), (1000 : ℚ)).1 > 1 / 100000 := by norm_num
  rw [findLoop_succ_of_guard sim n (0, 1000) hg] at h
  have emid : (((0 : ℚ), (1000 : ℚ)).1 + ((0 : ℚ), (1000 : ℚ)).2) / 2 = 500 := by norm_num
  cases hbody : findBody sim (0, 1000) with
  | none => simp [hbody] at h
  | some b' =>
    simp only [hbody, Option.some_bind] at h
    rcases findBody_cases sim (0, 1000) b' hbody with ⟨rfl, _⟩ | ⟨_, hs⟩
    · have := findLoop_le sim n _ v (by norm_num) h
      rw [emid] at this
      exact this
    · rw [emid] at hs
      obtain ⟨p, hp, hp0⟩ := hh
      obtain ⟨q, hq, hq0⟩ := hs
      rw [hp] at hq
      have : p = q := Option.some.inj hq
      linarith

/-- C11. Scenario P5: with `eCharge = 1.6e-19`, `eMass = 9.1e-31`,
`innerRadius = 0.01`, `outerRadius = 0.02`, `startSpeed = 1e6`, `length = 0.1`,
`startPosition = 0.005` and `dt = 1e-10`, and any logarithm with
`0 < log 2 ≤ 1` (as the natural logarithm has), `FindMinimumPotentialDifference()`
returns a value `v` with `0 < v < 1000`. -/
theorem scenario_minimum_in_range (log : ℚ → ℚ) (hpos : 0 < log 2) (hle : log 2 ≤ 1) :
    scenario.eCharge = 16 / 10 ^ 20 ∧ scenario.eMass = 91 / 10 ^ 32 ∧
    scenario.innerRadius = 1 / 100 ∧ scenario.outerRadius = 2 / 100 ∧
    scenario.startSpeed = 10 ^ 6 ∧ scenario.length = 1 / 10 ∧
    scenario.startPosition = 5 / 1000 ∧ scenario.dt = 1 / 10 ^ 10 ∧
    ∃ v, (∀ fuel, 27 ≤ fuel →
        FindMinimumPotentialDifference scenario log (fun _ => 1001) fuel = some v) ∧
      0 < v ∧ v < 1000 := by
  refine ⟨by norm_num [scenario, mainConsts], by norm_num [scenario, mainConsts],
    by norm_num [scenario, mainConsts], by norm_num [scenario, mainConsts],
    by norm_num [scenario, mainConsts], by norm_num [scenario, mainConsts],
    by norm_num [scenario, mainConsts], by norm_num [scenario, mainConsts], ?_⟩
  have hterm : ∀ u, (SimulationWith scenario log (fun _ => 1001) u).isSome := by
    intro u
    have h := SimulationWith_isSome scenario log u validConsts_scenario.2.2.2.2.1
      validConsts_scenario.2.2.2.2.2.2.1
    rwa [transitSteps_scenario] at h
  obtain ⟨b, hb, _, hret⟩ := findLoop_returns _ hterm
  obtain ⟨hl0, hlt, _⟩ := findBracket_range _ 27 b hb
  refine ⟨b.2, hret, lt_of_le_of_lt hl0 hlt, ?_⟩
  have h500 := findLoop_le_500 _ 26 b.2 (scenario_HitsWall_500 log hpos hle)
    (hret 27 (le_refl _))
  linarith

/-- Witness of C11: the stand-in `logApprox`, whose value at `2` is `9/13`. -/
theorem scenario_minimum_in_range_witness :
    scenario.eCharge = 16 / 10 ^ 20 ∧ scenario.eMass = 91 / 10 ^ 32 ∧
    scenario.innerRadius = 1 / 100 ∧ scenario.outerRadius = 2 / 100 ∧
    scenario.startSpeed = 10 ^ 6 ∧ scenario.length = 1 / 10 ∧
    scenario.startPosition = 5 / 1000 ∧ scenario.dt = 1 / 10 ^ 10 ∧
    ∃ v, (∀ fuel, 27 ≤ fuel →
        FindMinimumPotentialDifference scenario logApprox (fun _ => 1001) fuel = some v) ∧
      0 < v ∧ v < 1000 :=
  scenario_minimum_in_range logApprox (by norm_num [logApprox]) (by norm_num [logApprox])

/-- C12. The wall-hit predicate is monotone in the voltage: for
`eCharge, eMass > 0`, `outerRadius > innerRadius > 0`, `startSpeed > 0`, `dt > 0`,
`startPosition > 0` and `0 ≤ u1 ≤ u2`, both runs return, after `N1` and `N2`
iterations; while both runs are in the loop the `u2` run has `pos` no larger,
`vy` no smaller and `a` no smaller than the `u1` run; and if
`Simulation(u1) ≤ 0` then `Simulation(u2) ≤ 0` and the `u2` run stops no later
(`N2 ≤ N1`). -/
theorem wall_hit_monotone (num : consts) (log : ℚ → ℚ) (u1 u2 : ℚ)
    (hq : 0 < num.eCharge) (hm : 0 < num.eMass) (hin : 0 < num.innerRadius)
    (hout : num.innerRadius < num.outerRadius) (hs : 0 < num.startSpeed) (hdt : 0 < num.dt)
    (_hp : 0 < num.startPosition) (hlog : ∀ x, 1 < x → 0 < log x)
    (hu : 0 ≤ u1) (hu2 : u1 ≤ u2) :
    ∃ N1 N2 p1 p2, IterationCount num log u1 N1 ∧ IterationCount num log u2 N2 ∧
      Simulation num log u1 (transitSteps num) = some p1 ∧
      Simulation num log u2 (transitSteps num) = some p2 ∧
      (∀ i, i < N1 → i < N2 →
        (simStateAt num log u2 i).pos ≤ (simStateAt num log u1 i).pos ∧
        (simStateAt num log u1 i).speedOnYAxis ≤ (simStateAt num log u2 i).speedOnYAxis ∧
        (simStateAt num log u1 i).a ≤ (simStateAt num log u2 i).a) ∧
      (p1 ≤ 0 → p2 ≤ 0 ∧ N2 ≤ N1) := by
  have hL := logRatio_pos num log hin hout hlog
  obtain ⟨N1, _, hc1, h1⟩ := Simulation_terminates num log u1 hs hdt
  obtain ⟨N2, _, hc2, h2⟩ := Simulation_terminates num log u2 hs hdt
  have hpos2 := IterationCount_pos num log u2 N2 hc2
  refine ⟨N1, N2, _, _, hc1, hc2, h1, h2, ?_, ?_⟩
  · intro i _ hi2
    obtain ⟨hp, hrest⟩ := simStateAt_compare num log u1 u2 hq hm hL hin hdt hu hu2 i
      (fun j hj => hpos2 j (lt_trans hj hi2))
    obtain ⟨hv, ha⟩ := hrest (hpos2 i hi2)
    exact ⟨hp, hv, ha⟩
  · intro hhit
    refine ⟨wallHit_mono num log u1 u2 N1 N2 hq hm hL hin hdt hu hu2 hc1 hc2 hhit, ?_⟩
    by_contra hcon
    have hlt : N1 < N2 := lt_of_not_ge hcon
    have hc := (simStateAt_compare num log u1 u2 hq hm hL hin hdt hu hu2 N1
      (fun j hj => hpos2 j (lt_trans hj hlt))).1
    have := hpos2 N1 hlt
    linarith

/-- Witness of C12: the parameters `twoStep` at the voltages `1/2` and `1`. -/
theorem wall_hit_monotone_witness :
    ∃ N1 N2 p1 p2, IterationCount twoStep logApprox (1 / 2) N1 ∧
      IterationCount twoStep logApprox 1 N2 ∧
      Simulation twoStep logApprox (1 / 2) (transitSteps twoStep) = some p1 ∧
      Simulation twoStep logApprox 1 (transitSteps twoStep) = some p2 ∧
      (∀ i, i < N1 → i < N2 →
        (simStateAt twoStep logApprox 1 i).pos ≤ (simStateAt twoStep logApprox (1 / 2) i).pos ∧
        (simStateAt twoStep logApprox (1 / 2) i).speedOnYAxis ≤
          (simStateAt twoStep logApprox 1 i).speedOnYAxis ∧
        (simStateAt twoStep logApprox (1 / 2) i).a ≤ (simStateAt twoStep logApprox 1 i).a) ∧
      (p1 ≤ 0 → p2 ≤ 0 ∧ N2 ≤ N1) :=
  wall_hit_monotone twoStep logApprox (1 / 2) 1 validConsts_twoStep.1 validConsts_twoStep.2.1
    validConsts_twoStep.2.2.1 validConsts_twoStep.2.2.2.1 validConsts_twoStep.2.2.2.2.1
    validConsts_twoStep.2.2.2.2.2.2.1 validConsts_twoStep.2.2.2.2.2.2.2 logApprox_pos
    (by norm_num) (by norm_num)

/-- C13. At zero voltage the particle never moves: for `startPosition > 0`,
`startSpeed > 0`, `length ≥ 0` and `dt > 0`, every step of `Simulation(0)` keeps
`a = 0`, `vy = 0` and `pos = startPosition`; the run makes at least one
iteration, returns exactly `startPosition > 0`, and ends only by the
transit-time bound (`time * startSpeed > length` at exit, while `pos > 0`). -/
theorem zero_voltage_never_moves (num : consts) (log : ℚ → ℚ)
    (hp : 0 < num.startPosition) (hs : 0 < num.startSpeed) (hl : 0 ≤ num.length)
    (hdt : 0 < num.dt) :
    (∀ i, (simStateAt num log 0 i).a = 0 ∧ (simStateAt num log 0 i).speedOnYAxis = 0 ∧
      (simStateAt num log 0 i).pos = num.startPosition) ∧
    ∃ N, 0 < N ∧ IterationCount num log 0 N ∧
      Simulation num log 0 (transitSteps num) = some num.startPosition ∧
      0 < (simStateAt num log 0 N).pos ∧
      num.length < (simStateAt num log 0 N).time * num.startSpeed := by
  refine ⟨simStateAt_zero_voltage num log, ?_⟩
  obtain ⟨N, _, hc, h⟩ := Simulation_terminates num log 0 hs hdt
  have hposN : (simStateAt num log 0 N).pos = num.startPosition :=
    (simStateAt_zero_voltage num log N).2.2
  have hN0 : 0 < N := by
    rcases Nat.eq_zero_or_pos N with h0 | h0
    · subst h0
      rcases (simGuard_false_iff num _).mp hc.2 with hw | hw
      · rw [hposN] at hw
        linarith
      · rw [simStateAt_time] at hw
        simp only [Nat.cast_zero, zero_mul] at hw
        linarith
    · exact h0
  refine ⟨N, hN0, hc, by rw [h, hposN], by rw [hposN]; exact hp, ?_⟩
  rcases (simGuard_false_iff num _).mp hc.2 with hw | hw
  · rw [hposN] at hw
    linarith
  · exact hw

/-- Witness of C13: the scenario of the specification. -/
theorem zero_voltage_never_moves_witness :
    (∀ i, (simStateAt scenario logApprox 0 i).a = 0 ∧
      (simStateAt scenario logApprox 0 i).speedOnYAxis = 0 ∧
      (simStateAt scenario logApprox 0 i).pos = scenario.startPosition) ∧
    ∃ N, 0 < N ∧ IterationCount scenario logApprox 0 N ∧
      Simulation scenario logApprox 0 (transitSteps scenario) = some scenario.startPosition ∧
      0 < (simStateAt scenario logApprox 0 N).pos ∧
      scenario.length < (simStateAt scenario logApprox 0 N).time * scenario.startSpeed :=
  zero_voltage_never_moves scenario logApprox validConsts_scenario.2.2.2.2.2.2.2
    validConsts_scenario.2.2.2.2.1 (le_of_lt validConsts_scenario.2.2.2.2.2.1)
    validConsts_scenario.2.2.2.2.2.2.1

/-- The search returns the right end it starts from exactly when every
midpoint it probes from there on gives a surviving particle. -/
theorem findLoopCalls_right (sim : ℚ → Option ℚ) :
    ∀ (fuel : Nat) (b : ℚ × ℚ) (calls : List ℚ) (v : ℚ) (cs : List ℚ), b.1 < b.2 →
      findLoopCalls sim fuel b calls = some (v, cs) →
      ∃ new, cs = calls ++ new ∧ v ≤ b.2 ∧ (v = b.2 ↔ ∀ m, m ∈ new → Survives sim m) := by
  intro fuel
  induction fuel with
  | zero =>
    intro b calls v cs _ h
    by_cases hg : b.2 - b.1 > 1 / 100000
    · simp only [findLoopCalls, if_pos hg] at h
      exact absurd h (by simp)
    · simp only [findLoopCalls, if_neg hg, Option.some.injEq, Prod.mk.injEq] at h
      obtain ⟨hv, hcs⟩ := h
      exact ⟨[], by simp [hcs], le_of_eq hv.symm, by simp [hv]⟩
  | succ fuel ih =>
    intro b calls v cs hb h
    by_cases hg : b.2 - b.1 > 1 / 100000
    · simp only [findLoopCalls, if_pos hg] at h
      cases hbody : findBody sim b with
      | none => simp [hbody] at h
      | some b' =>
        simp only [hbody, Option.some_bind] at h
        rcases findBody_cases sim b b' hbody with ⟨rfl, hhit⟩ | ⟨rfl, hsurv⟩
        · have h1 : b.1 < (b.1 + b.2) / 2 := by linarith
          obtain ⟨new, hcs, hle, _⟩ := ih (b.1, (b.1 + b.2) / 2) _ v cs h1 h
          have hlt : v < b.2 := by
            have : (b.1 + b.2) / 2 < b.2 := by linarith
            exact lt_of_le_of_lt hle this
          refine ⟨(b.1 + b.2) / 2 :: new, by rw [hcs, List.append_assoc]; rfl, hlt.le, ?_⟩
          constructor
          · intro hv
            exact absurd hv (ne_of_lt hlt)
          · intro hall
            obtain ⟨p, hp, hp0⟩ := hhit
            obtain ⟨q, hq, hq0⟩ := hall _ (List.mem_cons_self _ _)
            rw [hp] at hq
            have : p = q := Option.some.inj hq
            linarith
        · have h1 : (b.1 + b.2) / 2 < b.2 := by linarith
          obtain ⟨new, hcs, hle, hiff⟩ := ih ((b.1 + b.2) / 2, b.2) _ v cs h1 h
          refine ⟨(b.1 + b.2) / 2 :: new, by rw [hcs, List.append_assoc]; rfl, hle, ?_⟩
          rw [hiff]
          constructor
          · intro hall m hm
            rcases List.mem_cons.mp hm with rfl | hm'
            · exact hsurv
            · exact hall m hm'
          · intro hall m hm
            exact hall m (List.mem_cons_of_mem _ hm)
    · simp only [findLoopCalls, if_neg hg, Option.some.injEq, Prod.mk.injEq] at h
      obtain ⟨hv, hcs⟩ := h
      exact ⟨[], by simp [hcs], le_of_eq hv.symm, by simp [hv]⟩

/-- C14. Range of the search result, for every behaviour of `Simulation` (any
function of the voltage that returns): the loop of
`FindMinimumPotentialDifference` reaches each of its loop heads `0, …, 27` and
keeps `0 ≤ leftBoard < rightBoard ≤ 1000`, the returned value `v` satisfies
`0 < v ≤ 1000`, and `v = 1000` exactly when every probed midpoint gave
`Simulation(mid) > 0`. -/
theorem search_result_range (sim : ℚ → ℚ) :
    (∀ k, k ≤ 27 → ∃ b, findBracket (fun u => some (sim u)) k = some b) ∧
    (∀ k b, findBracket (fun u => some (sim u)) k = some b →
      0 ≤ b.1 ∧ b.1 < b.2 ∧ b.2 ≤ 1000) ∧
    ∃ v calls, findLoopCalls (fun u => some (sim u)) 27 (0, 1000) [] = some (v, calls) ∧
      (∀ fuel, 27 ≤ fuel → findLoop (fun u => some (sim u)) fuel (0, 1000) = some v) ∧
      0 < v ∧ v ≤ 1000 ∧ (v = 1000 ↔ ∀ m, m ∈ calls → 0 < sim m) := by
  have hsim : ∀ u, ((fun u => some (sim u)) u).isSome := fun u => rfl
  obtain ⟨b, hb, _, hret⟩ := findLoop_returns (fun u => some (sim u)) hsim
  obtain ⟨hl0, hlt, hr1⟩ := findBracket_range _ 27 b hb
  refine ⟨findBracket_exists _ hsim, findBracket_range _, ?_⟩
  have h27 := hret 27 (le_refl _)
  rw [← findLoopCalls_fst _ 27 (0, 1000) []] at h27
  cases hc : findLoopCalls (fun u => some (sim u)) 27 (0, 1000) [] with
  | none => rw [hc] at h27; exact absurd h27 (by simp)
  | some r =>
    rw [hc] at h27
    have hv : r.1 = b.2 := by simpa using h27
    obtain ⟨new, hnew, _, hiff⟩ := findLoopCalls_right _ 27 (0, 1000) [] r.1 r.2
      (by norm_num) hc
    rw [List.nil_append] at hnew
    refine ⟨r.1, r.2, rfl, by rw [hv]; exact hret, by rw [hv]; exact lt_of_le_of_lt hl0 hlt,
      by rw [hv]; exact hr1, ?_⟩
    rw [hnew]
    have e : ((0 : ℚ), (1000 : ℚ)).2 = 1000 := rfl
    rw [e] at hiff
    rw [hiff]
    constructor
    · intro hall m hm
      obtain ⟨p, hp, hp0⟩ := hall m hm
      have : sim m = p := Option.some.inj hp
      rw [this]; exact hp0
    · intro hall m hm
      exact ⟨sim m, rfl, hall m hm⟩

/-- C15. Recorded samples satisfy the loop guard: for every voltage and
parameter set, a recording `SimulationForGraphics` returns after `N` iterations
holds the states before updates `1, …, N` only; every sample has `pos > 0` and
`t * startSpeed ≤ length`; each recorded speed after the first is the advanced
one `vy + a * dt`, never the reset to `0`; the terminal position, returned by
`Simulation`, is not among the samples when it is `≤ 0`; and the sequences are
non-empty whenever `startPosition > 0` and `length ≥ 0`. -/
theorem recorded_samples_satisfy_guard (num : consts) (log : ℚ → ℚ) (u : ℚ) (fuel : Nat)
    (g : Graphics) (h : SimulationForGraphics num log u fuel = some g) :
    (∀ y, y ∈ g.yVals → 0 < y) ∧
    (∀ t, t ∈ g.tVals → t * num.startSpeed ≤ num.length) ∧
    (∃ N, IterationCount num log u N ∧ g = samples num log u N ∧
      g.xVals.length = N ∧ g.tVals.length = N ∧ g.yVals.length = N ∧
      g.aVals.length = N ∧ g.vVals.length = N ∧
      Simulation num log u fuel = some (simStateAt num log u N).pos ∧
      (∀ i, i + 1 < N → (simStateAt num log u (i + 1)).speedOnYAxis =
        (simStateAt num log u i).speedOnYAxis + (simStateAt num log u i).a * num.dt) ∧
      ((simStateAt num log u N).pos ≤ 0 → (simStateAt num log u N).pos ∉ g.yVals)) ∧
    (0 < num.startPosition → 0 ≤ num.length →
      g.xVals ≠ [] ∧ g.tVals ≠ [] ∧ g.yVals ≠ [] ∧ g.aVals ≠ [] ∧ g.vVals ≠ []) := by
  obtain ⟨N, hN, hc, rfl⟩ := SimulationForGraphics_eq_some num log u fuel g h
  have hpos := IterationCount_pos num log u N hc
  have hy : ∀ y, y ∈ (samples num log u N).yVals → 0 < y := by
    intro y hy
    simp only [samples, List.mem_map] at hy
    obtain ⟨i, hi, rfl⟩ := hy
    exact hpos i (List.mem_range.mp hi)
  obtain ⟨h1, h2, h3, h4, h5⟩ := samples_length num log u N
  refine ⟨hy, ?_, ⟨N, hc, rfl, h1, h2, h3, h4, h5,
    (Simulation_eq_some_iff num log u fuel _).mpr ⟨N, hN, hc, rfl⟩, ?_, ?_⟩, ?_⟩
  · intro t ht
    simp only [samples, List.mem_map] at ht
    obtain ⟨i, hi, rfl⟩ := ht
    have := ((simGuard_true_iff num _).mp (hc.1 i (List.mem_range.mp hi))).2
    rwa [simStateAt_time] at this
  · intro i hi
    rw [simStateAt_succ, simBody_speed, ← simStateAt_succ, if_pos (hpos (i + 1) hi)]
  · intro hterm hmem
    exact absurd (hy _ hmem) (not_lt.mpr hterm)
  · intro hp hl
    have hN0 : N ≠ 0 := by
      intro h0
      subst h0
      rcases (simGuard_false_iff num _).mp hc.2 with hw | hw
      · have : (simStateAt num log u 0).pos = num.startPosition := rfl
        rw [this] at hw
        linarith
      · rw [simStateAt_time] at hw
        simp only [Nat.cast_zero, zero_mul] at hw
        linarith
    refine ⟨?_, ?_, ?_, ?_, ?_⟩
    · intro hnil; rw [hnil] at h1; exact hN0 h1.symm
    · intro hnil; rw [hnil] at h2; exact hN0 h2.symm
    · intro hnil; rw [hnil] at h3; exact hN0 h3.symm
    · intro hnil; rw [hnil] at h4; exact hN0 h4.symm
    · intro hnil; rw [hnil] at h5; exact hN0 h5.symm

/-- Witness of C15: the scenario at the voltage `1000`, a run that ends on the wall. -/
theorem recorded_samples_satisfy_guard_witness :
    (∀ y, y ∈ ((SimulationForGraphics scenario logApprox 1000 1001).getD
      ⟨[], [], [], [], []⟩).yVals → 0 < y) ∧
    (∀ t, t ∈ ((SimulationForGraphics scenario logApprox 1000 1001).getD
      ⟨[], [], [], [], []⟩).tVals → t * scenario.startSpeed ≤ scenario.length) ∧
    (∃ N, IterationCount scenario logApprox 1000 N ∧
      (SimulationForGraphics scenario logApprox 1000 1001).getD ⟨[], [], [], [], []⟩ =
        samples scenario logApprox 1000 N ∧
      ((SimulationForGraphics scenario logApprox 1000 1001).getD
        ⟨[], [], [], [], []⟩).xVals.length = N ∧
      ((SimulationForGraphics scenario logApprox 1000 1001).getD
        ⟨[], [], [], [], []⟩).tVals.length = N ∧
      ((SimulationForGraphics scenario logApprox 1000 1001).getD
        ⟨[], [], [], [], []⟩).yVals.length = N ∧
      ((SimulationForGraphics scenario logApprox 1000 1001).getD
        ⟨[], [], [], [], []⟩).aVals.length = N ∧
      ((SimulationForGraphics scenario logApprox 1000 1001).getD
        ⟨[], [], [], [], []⟩).vVals.length = N ∧
      Simulation scenario logApprox 1000 1001 = some (simStateAt scenario logApprox 1000 N).pos ∧
      (∀ i, i + 1 < N → (simStateAt scenario logApprox 1000 (i + 1)).speedOnYAxis =
        (simStateAt scenario logApprox 1000 i).speedOnYAxis +
          (simStateAt scenario logApprox 1000 i).a * scenario.dt) ∧
      ((simStateAt scenario logApprox 1000 N).pos ≤ 0 →
        (simStateAt scenario logApprox 1000 N).pos ∉
          ((SimulationForGraphics scenario logApprox 1000 1001).getD
            ⟨[], [], [], [], []⟩).yVals)) ∧
    (0 < scenario.startPosition → 0 ≤ scenario.length →
      ((SimulationForGraphics scenario logApprox 1000 1001).getD
        ⟨[], [], [], [], []⟩).xVals ≠ [] ∧
      ((SimulationForGraphics scenario logApprox 1000 1001).getD
        ⟨[], [], [], [], []⟩).tVals ≠ [] ∧
      ((SimulationForGraphics scenario logApprox 1000 1001).getD
        ⟨[], [], [], [], []⟩).yVals ≠ [] ∧
      ((SimulationForGraphics scenario logApprox 1000 1001).getD
        ⟨[], [], [], [], []⟩).aVals ≠ [] ∧
      ((SimulationForGraphics scenario logApprox 1000 1001).getD
        ⟨[], [], [], [], []⟩).vVals ≠ []) :=
  recorded_samples_satisfy_guard scenario logApprox 1000 1001
    ((SimulationForGraphics scenario logApprox 1000 1001).getD ⟨[], [], [], [], []⟩)
    (by decide!)

/-! ## Rounding to `float64` -/

theorem bitLengthAux_spec :
    ∀ (fuel n : Nat), n ≤ fuel → n ≠ 0 →
      2 ^ bitLengthAux fuel n ≤ n ∧ n < 2 ^ (bitLengthAux fuel n + 1) := by
  intro fuel
  induction fuel with
  | zero => intro n hn h0; omega
  | succ fuel ih =>
    intro n hn h0
    by_cases h2 : n < 2
    · have h1 : n = 1 := by omega
      subst h1
      simp [bitLengthAux]
    · simp only [bitLengthAux, if_neg h2]
      obtain ⟨hl, hu⟩ := ih (n / 2) (by omega) (by omega)
      rw [pow_succ] at hu ⊢
      rw [pow_succ]
      constructor
      · have := Nat.div_mul_le_self n 2
        have := Nat.mul_le_mul_right 2 hl
        omega
      · omega

theorem bitLength_spec (n : Nat) (h0 : n ≠ 0) :
    2 ^ bitLength n ≤ n ∧ n < 2 ^ (bitLength n + 1) :=
  bitLengthAux_spec n n (le_refl _) h0

/-- The exponent computed by `binade` is not too large: `2 ^ binade a ≤ a`. -/
theorem binade_le (a : ℚ) (ha : 0 < a) : (2 : ℚ) ^ binade a ≤ a := by
  unfold binade
  split
  · assumption
  · have hnum : 0 < a.num := Rat.num_pos.mpr ha
    have hn0 : a.num.natAbs ≠ 0 := by
      intro h
      have := Int.natAbs_eq_zero.mp h
      omega
    obtain ⟨hl, _⟩ := bitLength_spec a.num.natAbs hn0
    obtain ⟨_, hu⟩ := bitLength_spec a.den a.den_nz
    have hl' : (2 : ℚ) ^ (bitLength a.num.natAbs : ℤ) ≤ (a.num : ℚ) := by
      have h1 : ((2 ^ bitLength a.num.natAbs : ℕ) : ℤ) ≤ a.num := by
        have h2 : ((2 ^ bitLength a.num.natAbs : ℕ) : ℤ) ≤ (a.num.natAbs : ℤ) := by
          exact_mod_cast hl
        rwa [Int.natAbs_of_nonneg hnum.le] at h2
      rw [zpow_natCast]
      exact_mod_cast h1
    have hu' : (a.den : ℚ) ≤ (2 : ℚ) ^ ((bitLength a.den : ℤ) + 1) := by
      rw [show ((bitLength a.den : ℤ) + 1) = ((bitLength a.den + 1 : ℕ) : ℤ) by push_cast; rfl,
        zpow_natCast]
      exact_mod_cast hu.le
    have hexp : (2 : ℚ) ^ ((bitLength a.num.natAbs : ℤ) - (bitLength a.den : ℤ) - 1) =
        (2 : ℚ) ^ (bitLength a.num.natAbs : ℤ) / (2 : ℚ) ^ ((bitLength a.den : ℤ) + 1) := by
      rw [← zpow_sub₀ (by norm_num : (2 : ℚ) ≠ 0)]
      congr 1
      ring
    rw [hexp]
    have hpos2 : (0 : ℚ) < (2 : ℚ) ^ ((bitLength a.den : ℤ) + 1) := by positivity
    rw [div_le_iff₀ hpos2]
    have hmul : a * (a.den : ℚ) = (a.num : ℚ) := Rat.mul_den_eq_num a
    calc (2 : ℚ) ^ (bitLength a.num.natAbs : ℤ) ≤ (a.num : ℚ) := hl'
      _ = a * (a.den : ℚ) := hmul.symm
      _ ≤ a * (2 : ℚ) ^ ((bitLength a.den : ℤ) + 1) := mul_le_mul_of_nonneg_left hu' ha.le

/-- Rounding to the nearest integer moves a number by at most one half. -/
theorem roundEven_error (m : ℚ) : |(roundEven m : ℚ) - m| ≤ 1 / 2 := by
  have h0 : (0 : ℚ) ≤ m - ⌊m⌋ := sub_nonneg.mpr (Int.floor_le m)
  have h1 : m - ⌊m⌋ < 1 := by
    have := Int.lt_floor_add_one m
    linarith
  unfold roundEven
  rw [abs_le]
  split
  · constructor <;> linarith
  · split
    · push_cast
      constructor <;> linarith
    · split
      · constructor <;> linarith
      · push_cast
        constructor <;> linarith

theorem fl64_pos_error (x : ℚ) (hx : 0 < x) :
    |(roundEven (x / 2 ^ (binade x - 52)) : ℚ) * 2 ^ (binade x - 52) - x| ≤ x / 2 ^ 53 := by
  have hu : (0 : ℚ) < 2 ^ (binade x - 52) := by positivity
  have hx' : x = x / 2 ^ (binade x - 52) * 2 ^ (binade x - 52) := by
    field_simp
  have hr := roundEven_error (x / 2 ^ (binade x - 52))
  have hsplit : (roundEven (x / 2 ^ (binade x - 52)) : ℚ) * 2 ^ (binade x - 52) - x =
      ((roundEven (x / 2 ^ (binade x - 52)) : ℚ) - x / 2 ^ (binade x - 52)) *
        2 ^ (binade x - 52) := by
    rw [sub_mul, ← hx']
  rw [hsplit, abs_mul, abs_of_pos hu]
  have hulp : (2 : ℚ) ^ (binade x - 52) = 2 ^ binade x / 2 ^ 52 := by
    rw [zpow_sub₀ (by norm_num : (2 : ℚ) ≠ 0)]
    norm_num
  have hb := binade_le x hx
  calc |(roundEven (x / 2 ^ (binade x - 52)) : ℚ) - x / 2 ^ (binade x - 52)| *
        2 ^ (binade x - 52)
      ≤ 1 / 2 * 2 ^ (binade x - 52) := mul_le_mul_of_nonneg_right hr hu.le
    _ = 2 ^ binade x / 2 ^ 53 := by rw [hulp]; ring
    _ ≤ x / 2 ^ 53 := div_le_div_of_nonneg_right hb (by positivity)

/-- Rounding to `float64` has relative error at most `2 ^ (-53)`. -/
theorem fl64_error (x : ℚ) : |fl64 x - x| ≤ |x| / 2 ^ 53 := by
  unfold fl64
  rcases lt_trichotomy x 0 with hneg | hzero | hpos
  · have hne : x ≠ 0 := ne_of_lt hneg
    have hnp : ¬ 0 < x := not_lt.mpr hneg.le
    rw [if_neg hne, if_neg hnp, abs_of_neg hneg]
    have h := fl64_pos_error (-x) (neg_pos.mpr hneg)
    have e : -((roundEven (-x / 2 ^ (binade (-x) - 52)) : ℚ) * 2 ^ (binade (-x) - 52)) - x =
        -((roundEven (-x / 2 ^ (binade (-x) - 52)) : ℚ) * 2 ^ (binade (-x) - 52) - -x) := by
      ring
    rw [e, abs_neg]
    exact h
  · subst hzero
    simp
  · have hne : x ≠ 0 := ne_of_gt hpos
    rw [if_neg hne, if_pos hpos, abs_of_pos hpos]
    exact fl64_pos_error x hpos

theorem fl64_zero : fl64 0 = 0 := by
  unfold fl64
  simp

/-- Consequences of the relative error bound for a non-negative argument. -/
theorem rnd_bounds (rnd : ℚ → ℚ) (hrnd : ∀ x, |rnd x - x| ≤ |x| / 2 ^ 53) (x : ℚ)
    (hx : 0 ≤ x) : x * (1 - 1 / 2 ^ 53) ≤ rnd x ∧ rnd x ≤ x * (1 + 1 / 2 ^ 53) := by
  have h := hrnd x
  rw [abs_of_nonneg hx, abs_le] at h
  constructor
  · linarith [h.1]
  · linarith [h.2]

theorem rnd_pos (rnd : ℚ → ℚ) (hrnd : ∀ x, |rnd x - x| ≤ |x| / 2 ^ 53) (x : ℚ)
    (hx : 0 < x) : 0 < rnd x := by
  have h := (rnd_bounds rnd hrnd x hx.le).1
  have : 0 < x * (1 - 1 / 2 ^ 53) := mul_pos hx (by norm_num)
  linarith

theorem rnd_zero (rnd : ℚ → ℚ) (hrnd : ∀ x, |rnd x - x| ≤ |x| / 2 ^ 53) : rnd 0 = 0 := by
  have h := hrnd 0
  simp only [sub_zero, abs_zero, zero_div] at h
  exact abs_eq_zero.mp (le_antisymm h (abs_nonneg _))

/-! ## The stepping and recording loops with rounded arithmetic -/

theorem simGuardF_true_iff (rnd : ℚ → ℚ) (num : consts) (s : SimState) :
    simGuardF rnd num s = true ↔ 0 < s.pos ∧ rnd (s.time * num.startSpeed) ≤ num.length := by
  simp [simGuardF]

theorem simGuardF_false_iff (rnd : ℚ → ℚ) (num : consts) (s : SimState) :
    simGuardF rnd num s = false ↔ (s.pos ≤ 0 ∨ num.length < rnd (s.time * num.startSpeed)) := by
  rw [← Bool.not_eq_true, simGuardF_true_iff]
  constructor
  · intro h
    by_cases hp : 0 < s.pos
    · right
      exact lt_of_not_ge (fun hl => h ⟨hp, hl⟩)
    · left
      exact le_of_not_gt hp
  · rintro (h | h) ⟨hp, hl⟩
    · exact absurd hp (not_lt.mpr h)
    · exact absurd hl (not_le.mpr h)

theorem simLoopF_zero (rnd : ℚ → ℚ) (num : consts) (log : ℚ → ℚ) (u : ℚ) (s : SimState) :
    simLoopF rnd num log u 0 s = if simGuardF rnd num s then none else some s := rfl

theorem simLoopF_succ (rnd : ℚ → ℚ) (num : consts) (log : ℚ → ℚ) (u : ℚ) (n : Nat)
    (s : SimState) :
    simLoopF rnd num log u (n + 1) s =
      if simGuardF rnd num s then simLoopF rnd num log u n (simBodyF rnd num log u s)
      else some s := rfl

/-- A run of the loop that returns has performed some number `N ≤ fuel` of
iterations, and conversely. -/
theorem simLoopF_eq_some_iff (rnd : ℚ → ℚ) (num : consts) (log : ℚ → ℚ) (u : ℚ) :
    ∀ (n : Nat) (s r : SimState), simLoopF rnd num log u n s = some r ↔
      ∃ N, N ≤ n ∧ (∀ i, i < N → simGuardF rnd num ((simBodyF rnd num log u)^[i] s) = true) ∧
        simGuardF rnd num ((simBodyF rnd num log u)^[N] s) = false ∧
        r = (simBodyF rnd num log u)^[N] s := by
  intro n
  induction n with
  | zero =>
    intro s r
    rw [simLoopF_zero]
    constructor
    · intro h
      by_cases hg : simGuardF rnd num s = true
      · rw [if_pos hg] at h; exact absurd h (by simp)
      · rw [if_neg hg] at h
        refine ⟨0, le_refl _, fun i hi => absurd hi (Nat.not_lt_zero i), ?_, ?_⟩
        · simpa using hg
        · simpa using (Option.some.inj h).symm
    · rintro ⟨N, hN, _, hg, hr⟩
      have h0 : N = 0 := Nat.le_zero.mp hN
      subst h0
      simp only [Function.iterate_zero, id_eq] at hg hr
      rw [hr]
      simp [hg]
  | succ n ih =>
    intro s r
    rw [simLoopF_succ]
    by_cases hg : simGuardF rnd num s = true
    · rw [if_pos hg, ih]
      constructor
      · rintro ⟨N, hN, hall, hstop, hr⟩
        refine ⟨N + 1, Nat.succ_le_succ hN, ?_, ?_, ?_⟩
        · intro i hi
          cases i with
          | zero => simpa using hg
          | succ i =>
            rw [Function.iterate_succ_apply]
            exact hall i (Nat.lt_of_succ_lt_succ hi)
        · rw [Function.iterate_succ_apply]; exact hstop
        · rw [Function.iterate_succ_apply]; exact hr
      · rintro ⟨N, hN, hall, hstop, hr⟩
        cases N with
        | zero =>
          simp only [Function.iterate_zero, id_eq] at hstop
          rw [hstop] at hg
          exact absurd hg (by simp)
        | succ N =>
          refine ⟨N, Nat.le_of_succ_le_succ hN, ?_, ?_, ?_⟩
          · intro i hi
            have := hall (i + 1) (Nat.succ_lt_succ hi)
            rwa [Function.iterate_succ_apply] at this
          · rwa [Function.iterate_succ_apply] at hstop
          · rwa [Function.iterate_succ_apply] at hr
    · rw [if_neg hg]
      have hg' : simGuardF rnd num s = false := by simpa using hg
      constructor
      · intro h
        refine ⟨0, Nat.zero_le _, fun i hi => absurd hi (Nat.not_lt_zero i), ?_, ?_⟩
        · simpa using hg'
        · simpa using (Option.some.inj h).symm
      · rintro ⟨N, _, hall, _, hr⟩
        cases N with
        | zero =>
          simp only [Function.iterate_zero, id_eq] at hr
          rw [hr]
        | succ N =>
          have := hall 0 (Nat.succ_pos N)
          simp only [Function.iterate_zero, id_eq] at this
          rw [this] at hg'
          exact absurd hg' (by simp)

/-- The number of iterations of a run is determined by the guard. -/
theorem IterationCountF_unique (rnd : ℚ → ℚ) (num : consts) (log : ℚ → ℚ) (u : ℚ) (N M : Nat)
    (hN : IterationCountF rnd num log u N) (hM : IterationCountF rnd num log u M) : N = M := by
  rcases Nat.lt_trichotomy N M with h | h | h
  · have := hM.1 N h
    rw [hN.2] at this
    exact absurd this (by simp)
  · exact h
  · have := hN.1 M h
    rw [hM.2] at this
    exact absurd this (by simp)

theorem SimulationF_eq_some_iff (rnd : ℚ → ℚ) (num : consts) (log : ℚ → ℚ) (u : ℚ) (fuel : Nat) (p : ℚ) :
    SimulationF rnd num log u fuel = some p ↔
      ∃ N, N ≤ fuel ∧ IterationCountF rnd num log u N ∧ p = (simStateAtF rnd num log u N).pos := by
  unfold SimulationF IterationCountF simStateAtF
  constructor
  · intro h
    cases hl : simLoopF rnd num log u fuel (simInitF rnd num log u) with
    | none => simp [hl] at h
    | some r =>
      rw [hl] at h
      obtain ⟨N, hN, hall, hstop, hr⟩ := (simLoopF_eq_some_iff rnd num log u fuel _ r).mp hl
      refine ⟨N, hN, ⟨hall, hstop⟩, ?_⟩
      rw [← hr]
      exact (Option.some.inj h).symm
  · rintro ⟨N, hN, ⟨hall, hstop⟩, hp⟩
    have := (simLoopF_eq_some_iff rnd num log u fuel (simInitF rnd num log u) _).mpr
      ⟨N, hN, hall, hstop, rfl⟩
    rw [this, hp]
    rfl

theorem simStateAtF_succ (rnd : ℚ → ℚ) (num : consts) (log : ℚ → ℚ) (u : ℚ) (i : Nat) :
    simStateAtF rnd num log u (i + 1) = simBodyF rnd num log u (simStateAtF rnd num log u i) := by
  unfold simStateAtF
  rw [Function.iterate_succ_apply']

/-- Once the guard fails at some index, the loop has a definite number of iterations. -/
theorem exists_IterationCountF (rnd : ℚ → ℚ) (num : consts) (log : ℚ → ℚ) (u : ℚ) (M : Nat)
    (h : simGuardF rnd num (simStateAtF rnd num log u M) = false) :
    ∃ N, N ≤ M ∧ IterationCountF rnd num log u N := by
  classical
  have hex : ∃ i, simGuardF rnd num (simStateAtF rnd num log u i) = false := ⟨M, h⟩
  refine ⟨Nat.find hex, Nat.find_min' hex h, ?_, Nat.find_spec hex⟩
  intro i hi
  have := Nat.find_min hex hi
  simpa using this

/-- A recording run whose guard fails after `N ≤ fuel` iterations returns the
states before each of its `N` updates, in order. -/
theorem graphLoopF_of_count (rnd : ℚ → ℚ) (num : consts) (log : ℚ → ℚ) (u : ℚ) :
    ∀ (n N : Nat) (s : SimState) (g : Graphics), N ≤ n →
      (∀ i, i < N → simGuardF rnd num ((simBodyF rnd num log u)^[i] s) = true) →
      simGuardF rnd num ((simBodyF rnd num log u)^[N] s) = false →
      graphLoopF rnd num log u n s g =
        some (((List.range N).map (fun i => (simBodyF rnd num log u)^[i] s)).foldl (recordF rnd) g) := by
  intro n
  induction n with
  | zero =>
    intro N s g hN _ hstop
    have h0 : N = 0 := Nat.le_zero.mp hN
    subst h0
    simp only [Function.iterate_zero, id_eq] at hstop
    simp [graphLoopF, hstop]
  | succ n ih =>
    intro N s g hN hall hstop
    cases N with
    | zero =>
      simp only [Function.iterate_zero, id_eq] at hstop
      simp [graphLoopF, hstop]
    | succ N =>
      have hg : simGuardF rnd num s = true := by
        simpa using hall 0 (Nat.succ_pos N)
      have hrec := ih N (simBodyF rnd num log u s) (recordF rnd g s) (Nat.le_of_succ_le_succ hN)
        (fun i hi => by
          have := hall (i + 1) (Nat.succ_lt_succ hi)
          rwa [Function.iterate_succ_apply] at this)
        (by rwa [Function.iterate_succ_apply] at hstop)
      simp only [graphLoopF, hg, if_true]
      rw [hrec, List.range_succ_eq_map, List.map_cons, List.foldl_cons, List.map_map]
      rfl

theorem IterationCountF_pos (rnd : ℚ → ℚ) (num : consts) (log : ℚ → ℚ) (u : ℚ) (N : Nat)
    (hc : IterationCountF rnd num log u N) :
    ∀ j, j < N → 0 < (simStateAtF rnd num log u j).pos :=
  fun j hj => ((simGuardF_true_iff rnd num _).mp (hc.1 j hj)).1

theorem foldl_recordF (rnd : ℚ → ℚ) (states : List SimState) :
    ∀ g : Graphics, states.foldl (recordF rnd) g =
      { xVals := g.xVals ++ states.map (fun s => rnd (s.speedOnYAxis * s.time))
        tVals := g.tVals ++ states.map (fun s => s.time)
        yVals := g.yVals ++ states.map (fun s => s.pos)
        aVals := g.aVals ++ states.map (fun s => s.a)
        vVals := g.vVals ++ states.map (fun s => s.speedOnYAxis) } := by
  induction states with
  | nil => intro g; simp
  | cons s rest ih =>
    intro g
    rw [List.foldl_cons, ih]
    simp [recordF]

/-- The rounded recording run with `N ≤ fuel` iterations returns the states
held before each of its `N` updates. -/
theorem SimulationForGraphicsF_of_count (rnd : ℚ → ℚ) (num : consts) (log : ℚ → ℚ) (u : ℚ)
    (fuel N : Nat) (hN : N ≤ fuel) (hc : IterationCountF rnd num log u N) :
    SimulationForGraphicsF rnd num log u fuel = some (samplesF rnd num log u N) := by
  unfold SimulationForGraphicsF
  rw [graphLoopF_of_count rnd num log u fuel N _ _ hN hc.1 hc.2, foldl_recordF]
  simp only [samplesF, List.nil_append, List.map_map, Option.some.injEq, Graphics.mk.injEq]
  exact ⟨rfl, rfl, rfl, rfl, rfl⟩

theorem samplesF_length (rnd : ℚ → ℚ) (num : consts) (log : ℚ → ℚ) (u : ℚ) (N : Nat) :
    (samplesF rnd num log u N).xVals.length = N ∧ (samplesF rnd num log u N).tVals.length = N ∧
    (samplesF rnd num log u N).yVals.length = N ∧ (samplesF rnd num log u N).aVals.length = N ∧
    (samplesF rnd num log u N).vVals.length = N := by
  simp [samplesF]

theorem simBodyF_time (rnd : ℚ → ℚ) (num : consts) (log : ℚ → ℚ) (u : ℚ) (s : SimState) :
    (simBodyF rnd num log u s).time = rnd (s.time + num.dt) := rfl

theorem clockF_succ (rnd : ℚ → ℚ) (dt : ℚ) (i : Nat) :
    clockF rnd dt (i + 1) = rnd (clockF rnd dt i + dt) := by
  unfold clockF
  rw [Function.iterate_succ_apply']

/-- The clock of the rounded loop is `dt` added once per iteration, each sum rounded. -/
theorem simStateAtF_time (rnd : ℚ → ℚ) (num : consts) (log : ℚ → ℚ) (u : ℚ) (i : Nat) :
    (simStateAtF rnd num log u i).time = clockF rnd num.dt i := by
  induction i with
  | zero => rfl
  | succ i ih => rw [simStateAtF_succ, simBodyF_time, ih, clockF_succ]

/-- Without rounding the rounded definitions are the exact ones. -/
theorem simBodyF_id (num : consts) (log : ℚ → ℚ) (u : ℚ) (s : SimState) :
    simBodyF id num log u s = simBody num log u s := rfl

theorem simLoopF_id (num : consts) (log : ℚ → ℚ) (u : ℚ) :
    ∀ (n : Nat) (s : SimState), simLoopF id num log u n s = simLoop num log u n s := by
  intro n
  induction n with
  | zero => intro s; rfl
  | succ n ih =>
    intro s
    rw [simLoopF_succ, simLoop_succ, simBodyF_id, ih]
    rfl

theorem SimulationF_id (num : consts) (log : ℚ → ℚ) (u : ℚ) (fuel : Nat) :
    SimulationF id num log u fuel = Simulation num log u fuel := by
  unfold SimulationF Simulation
  rw [simLoopF_id]
  rfl

theorem graphLoopF_id (num : consts) (log : ℚ → ℚ) (u : ℚ) :
    ∀ (n : Nat) (s : SimState) (g : Graphics),
      graphLoopF id num log u n s g = graphLoop num log u n s g := by
  intro n
  induction n with
  | zero => intro s g; rfl
  | succ n ih =>
    intro s g
    show (if simGuardF id num s then
        graphLoopF id num log u n (simBodyF id num log u s) (recordF id g s) else some g) =
      (if simGuard num s then graphLoop num log u n (simBody num log u s) (record g s)
        else some g)
    rw [ih]
    rfl

theorem SimulationForGraphicsF_id (num : consts) (log : ℚ → ℚ) (u : ℚ) (fuel : Nat) :
    SimulationForGraphicsF id num log u fuel = SimulationForGraphics num log u fuel := by
  unfold SimulationForGraphicsF SimulationForGraphics
  rw [graphLoopF_id]
  rfl

/-! ## The clock under rounding with relative error `2 ^ (-53)` -/

/-- After `i` rounded additions of `dt ≥ 0` the clock is within the factors
`(1 - 2^-53)^i` and `(1 + 2^-53)^i` of `i * dt`. -/
theorem clockF_bounds (rnd : ℚ → ℚ) (hrnd : ∀ x, |rnd x - x| ≤ |x| / 2 ^ 53) (dt : ℚ)
    (hdt : 0 ≤ dt) :
    ∀ i : Nat, (i : ℚ) * dt * (1 - 1 / 2 ^ 53) ^ i ≤ clockF rnd dt i ∧
      clockF rnd dt i ≤ (i : ℚ) * dt * (1 + 1 / 2 ^ 53) ^ i := by
  have hlo0 : (0 : ℚ) ≤ 1 - 1 / 2 ^ 53 := by norm_num
  have hlo1 : (1 : ℚ) - 1 / 2 ^ 53 ≤ 1 := by norm_num
  have hhi1 : (1 : ℚ) ≤ 1 + 1 / 2 ^ 53 := by norm_num
  intro i
  induction i with
  | zero => simp [clockF]
  | succ i ih =>
    obtain ⟨hl, hu⟩ := ih
    have hpl : (0 : ℚ) ≤ (1 - 1 / 2 ^ 53) ^ i := pow_nonneg hlo0 i
    have hpl1 : ((1 : ℚ) - 1 / 2 ^ 53) ^ i ≤ 1 := pow_le_one₀ hlo0 hlo1
    have hph1 : (1 : ℚ) ≤ (1 + 1 / 2 ^ 53) ^ i := one_le_pow₀ hhi1
    have hi0 : (0 : ℚ) ≤ (i : ℚ) := Nat.cast_nonneg i
    have hc0 : 0 ≤ clockF rnd dt i :=
      le_trans (mul_nonneg (mul_nonneg hi0 hdt) hpl) hl
    obtain ⟨hrl, hru⟩ := rnd_bounds rnd hrnd (clockF rnd dt i + dt) (add_nonneg hc0 hdt)
    rw [clockF_succ]
    constructor
    · have h1 : ((i : ℚ) + 1) * dt * (1 - 1 / 2 ^ 53) ^ i ≤ clockF rnd dt i + dt := by
        have : dt * (1 - 1 / 2 ^ 53) ^ i ≤ dt := by
          calc dt * (1 - 1 / 2 ^ 53) ^ i ≤ dt * 1 := mul_le_mul_of_nonneg_left hpl1 hdt
            _ = dt := mul_one dt
        linarith
      calc ((i + 1 : ℕ) : ℚ) * dt * (1 - 1 / 2 ^ 53) ^ (i + 1)
          = ((i : ℚ) + 1) * dt * (1 - 1 / 2 ^ 53) ^ i * (1 - 1 / 2 ^ 53) := by
            push_cast; ring
        _ ≤ (clockF rnd dt i + dt) * (1 - 1 / 2 ^ 53) := mul_le_mul_of_nonneg_right h1 hlo0
        _ ≤ rnd (clockF rnd dt i + dt) := hrl
    · have h1 : clockF rnd dt i + dt ≤ ((i : ℚ) + 1) * dt * (1 + 1 / 2 ^ 53) ^ i := by
        have : dt ≤ dt * (1 + 1 / 2 ^ 53) ^ i := by
          calc dt = dt * 1 := (mul_one dt).symm
            _ ≤ dt * (1 + 1 / 2 ^ 53) ^ i := mul_le_mul_of_nonneg_left hph1 hdt
        linarith
      calc rnd (clockF rnd dt i + dt) ≤ (clockF rnd dt i + dt) * (1 + 1 / 2 ^ 53) := hru
        _ ≤ ((i : ℚ) + 1) * dt * (1 + 1 / 2 ^ 53) ^ i * (1 + 1 / 2 ^ 53) :=
            mul_le_mul_of_nonneg_right h1 (le_trans zero_le_one hhi1)
        _ = ((i + 1 : ℕ) : ℚ) * dt * (1 + 1 / 2 ^ 53) ^ (i + 1) := by
            push_cast; ring

/-- The default time step, as computed with rounding, times the speed is
`length / 1000` up to two roundings. -/
theorem default_dt_bounds (rnd : ℚ → ℚ) (hrnd : ∀ x, |rnd x - x| ≤ |x| / 2 ^ 53) (v l : ℚ)
    (hv : 0 < v) (hl : 0 < l) :
    0 < rnd (l / rnd (v * 1000)) ∧
    l / 1000 * ((1 - 1 / 2 ^ 53) / (1 + 1 / 2 ^ 53)) ≤ rnd (l / rnd (v * 1000)) * v ∧
    rnd (l / rnd (v * 1000)) * v ≤ l / 1000 * ((1 + 1 / 2 ^ 53) / (1 - 1 / 2 ^ 53)) := by
  have hlo : (0 : ℚ) < 1 - 1 / 2 ^ 53 := by norm_num
  have hhi : (0 : ℚ) < 1 + 1 / 2 ^ 53 := by norm_num
  have hv1000 : 0 < v * 1000 := by linarith
  have hw := rnd_pos rnd hrnd (v * 1000) hv1000
  obtain ⟨hwl, hwu⟩ := rnd_bounds rnd hrnd (v * 1000) hv1000.le
  have hq : 0 < l / rnd (v * 1000) := div_pos hl hw
  obtain ⟨hdl, hdu⟩ := rnd_bounds rnd hrnd (l / rnd (v * 1000)) hq.le
  refine ⟨rnd_pos rnd hrnd _ hq, ?_, ?_⟩
  · have key : 1 / (1000 * (1 + 1 / 2 ^ 53)) ≤ v / rnd (v * 1000) := by
      rw [div_le_div_iff₀ (by norm_num) hw]
      linarith
    have h1 : l / 1000 * ((1 - 1 / 2 ^ 53) / (1 + 1 / 2 ^ 53)) ≤
        l / rnd (v * 1000) * (1 - 1 / 2 ^ 53) * v := by
      calc l / 1000 * ((1 - 1 / 2 ^ 53) / (1 + 1 / 2 ^ 53))
          = l * (1 - 1 / 2 ^ 53) * (1 / (1000 * (1 + 1 / 2 ^ 53))) := by ring
        _ ≤ l * (1 - 1 / 2 ^ 53) * (v / rnd (v * 1000)) :=
            mul_le_mul_of_nonneg_left key (mul_nonneg hl.le hlo.le)
        _ = l / rnd (v * 1000) * (1 - 1 / 2 ^ 53) * v := by ring
    calc l / 1000 * ((1 - 1 / 2 ^ 53) / (1 + 1 / 2 ^ 53))
        ≤ l / rnd (v * 1000) * (1 - 1 / 2 ^ 53) * v := h1
      _ ≤ rnd (l / rnd (v * 1000)) * v := mul_le_mul_of_nonneg_right hdl hv.le
  · have key : v / rnd (v * 1000) ≤ 1 / (1000 * (1 - 1 / 2 ^ 53)) := by
      rw [div_le_div_iff₀ hw (by norm_num)]
      linarith
    have h1 : l / rnd (v * 1000) * (1 + 1 / 2 ^ 53) * v ≤
        l / 1000 * ((1 + 1 / 2 ^ 53) / (1 - 1 / 2 ^ 53)) := by
      calc l / rnd (v * 1000) * (1 + 1 / 2 ^ 53) * v
          = l * (1 + 1 / 2 ^ 53) * (v / rnd (v * 1000)) := by ring
        _ ≤ l * (1 + 1 / 2 ^ 53) * (1 / (1000 * (1 - 1 / 2 ^ 53))) :=
            mul_le_mul_of_nonneg_left key (mul_nonneg hl.le hhi.le)
        _ = l / 1000 * ((1 + 1 / 2 ^ 53) / (1 - 1 / 2 ^ 53)) := by ring
    calc rnd (l / rnd (v * 1000)) * v
        ≤ l / rnd (v * 1000) * (1 + 1 / 2 ^ 53) * v := mul_le_mul_of_nonneg_right hdu hv.le
      _ ≤ l / 1000 * ((1 + 1 / 2 ^ 53) / (1 - 1 / 2 ^ 53)) := h1

/-- With the default time step the time part of the guard holds at each of the
loop heads `0, …, 999`. -/
theorem transit_guard_holds (rnd : ℚ → ℚ) (hrnd : ∀ x, |rnd x - x| ≤ |x| / 2 ^ 53)
    (num : consts) (log : ℚ → ℚ) (u : ℚ) (hs : 0 < num.startSpeed) (hl : 0 < num.length)
    (hdt : num.dt = rnd (num.length / rnd (num.startSpeed * 1000))) (i : Nat) (hi : i ≤ 999) :
    rnd ((simStateAtF rnd num log u i).time * num.startSpeed) ≤ num.length := by
  obtain ⟨hdtpos, _, hDu⟩ := default_dt_bounds rnd hrnd num.startSpeed num.length hs hl
  rw [← hdt] at hdtpos hDu
  obtain ⟨hcl, hcu⟩ := clockF_bounds rnd hrnd num.dt hdtpos.le i
  have hlo0 : (0 : ℚ) < 1 - 1 / 2 ^ 53 := by norm_num
  have hhi1 : (1 : ℚ) ≤ 1 + 1 / 2 ^ 53 := by norm_num
  have hhi0 : (0 : ℚ) ≤ 1 + 1 / 2 ^ 53 := le_trans zero_le_one hhi1
  have hc0 : 0 ≤ clockF rnd num.dt i :=
    le_trans (mul_nonneg (mul_nonneg (Nat.cast_nonneg i) hdtpos.le) (pow_nonneg hlo0.le i)) hcl
  have hD0 : 0 ≤ num.dt * num.startSpeed := mul_nonneg hdtpos.le hs.le
  rw [simStateAtF_time]
  have h1 := (rnd_bounds rnd hrnd (clockF rnd num.dt i * num.startSpeed)
    (mul_nonneg hc0 hs.le)).2
  have h2 : clockF rnd num.dt i * num.startSpeed * (1 + 1 / 2 ^ 53) ≤
      (i : ℚ) * (num.dt * num.startSpeed) * (1 + 1 / 2 ^ 53) ^ (i + 1) := by
    have := mul_le_mul_of_nonneg_right hcu (mul_nonneg hs.le hhi0)
    calc clockF rnd num.dt i * num.startSpeed * (1 + 1 / 2 ^ 53)
        = clockF rnd num.dt i * (num.startSpeed * (1 + 1 / 2 ^ 53)) := by ring
      _ ≤ (i : ℚ) * num.dt * (1 + 1 / 2 ^ 53) ^ i * (num.startSpeed * (1 + 1 / 2 ^ 53)) := this
      _ = (i : ℚ) * (num.dt * num.startSpeed) * (1 + 1 / 2 ^ 53) ^ (i + 1) := by ring
  have h3 : (i : ℚ) * (num.dt * num.startSpeed) * (1 + 1 / 2 ^ 53) ^ (i + 1) ≤
      999 * (num.dt * num.startSpeed) * (1 + 1 / 2 ^ 53) ^ 1000 := by
    have hi' : (i : ℚ) ≤ 999 := by exact_mod_cast hi
    have hp : ((1 : ℚ) + 1 / 2 ^ 53) ^ (i + 1) ≤ (1 + 1 / 2 ^ 53) ^ 1000 :=
      pow_le_pow_right₀ hhi1 (by omega)
    exact mul_le_mul (mul_le_mul_of_nonneg_right hi' hD0) hp (pow_nonneg hhi0 _)
      (mul_nonneg (by norm_num) hD0)
  have h4 : 999 * (num.dt * num.startSpeed) * (1 + 1 / 2 ^ 53) ^ 1000 ≤
      999 * (num.length / 1000 * ((1 + 1 / 2 ^ 53) / (1 - 1 / 2 ^ 53))) *
        (1 + 1 / 2 ^ 53) ^ 1000 :=
    mul_le_mul_of_nonneg_right (mul_le_mul_of_nonneg_left hDu (by norm_num))
      (pow_nonneg hhi0 _)
  have h5 : 999 * (num.length / 1000 * ((1 + 1 / 2 ^ 53) / (1 - 1 / 2 ^ 53))) *
      (1 + 1 / 2 ^ 53) ^ 1000 ≤ num.length := by
    have hnum : (999 : ℚ) / 1000 * ((1 + 1 / 2 ^ 53) / (1 - 1 / 2 ^ 53)) *
        (1 + 1 / 2 ^ 53) ^ 1000 ≤ 1 := by norm_num
    calc 999 * (num.length / 1000 * ((1 + 1 / 2 ^ 53) / (1 - 1 / 2 ^ 53))) *
          (1 + 1 / 2 ^ 53) ^ 1000
        = num.length * ((999 : ℚ) / 1000 * ((1 + 1 / 2 ^ 53) / (1 - 1 / 2 ^ 53)) *
            (1 + 1 / 2 ^ 53) ^ 1000) := by ring
      _ ≤ num.length * 1 := mul_le_mul_of_nonneg_left hnum hl.le
      _ = num.length := mul_one _
  linarith

/-- With the default time step the time part of the guard fails at the loop head `1001`. -/
theorem transit_guard_fails (rnd : ℚ → ℚ) (hrnd : ∀ x, |rnd x - x| ≤ |x| / 2 ^ 53)
    (num : consts) (log : ℚ → ℚ) (u : ℚ) (hs : 0 < num.startSpeed) (hl : 0 < num.length)
    (hdt : num.dt = rnd (num.length / rnd (num.startSpeed * 1000))) :
    num.length < rnd ((simStateAtF rnd num log u 1001).time * num.startSpeed) := by
  obtain ⟨hdtpos, hDl, _⟩ := default_dt_bounds rnd hrnd num.startSpeed num.length hs hl
  rw [← hdt] at hdtpos hDl
  obtain ⟨hcl, _⟩ := clockF_bounds rnd hrnd num.dt hdtpos.le 1001
  have hlo0 : (0 : ℚ) < 1 - 1 / 2 ^ 53 := by norm_num
  have hc0 : 0 ≤ clockF rnd num.dt 1001 :=
    le_trans (mul_nonneg (mul_nonneg (Nat.cast_nonneg _) hdtpos.le) (pow_nonneg hlo0.le _)) hcl
  rw [simStateAtF_time]
  have h1 := (rnd_bounds rnd hrnd (clockF rnd num.dt 1001 * num.startSpeed)
    (mul_nonneg hc0 hs.le)).1
  have h2 : 1001 * (num.dt * num.startSpeed) * (1 - 1 / 2 ^ 53) ^ 1002 ≤
      clockF rnd num.dt 1001 * num.startSpeed * (1 - 1 / 2 ^ 53) := by
    have := mul_le_mul_of_nonneg_right hcl (mul_nonneg hs.le hlo0.le)
    calc 1001 * (num.dt * num.startSpeed) * (1 - 1 / 2 ^ 53) ^ 1002
        = ((1001 : ℕ) : ℚ) * num.dt * (1 - 1 / 2 ^ 53) ^ 1001 *
            (num.startSpeed * (1 - 1 / 2 ^ 53)) := by push_cast; ring
      _ ≤ clockF rnd num.dt 1001 * (num.startSpeed * (1 - 1 / 2 ^ 53)) := this
      _ = clockF rnd num.dt 1001 * num.startSpeed * (1 - 1 / 2 ^ 53) := by ring
  have h3 : 1001 * (num.length / 1000 * ((1 - 1 / 2 ^ 53) / (1 + 1 / 2 ^ 53))) *
      (1 - 1 / 2 ^ 53) ^ 1002 ≤
      1001 * (num.dt * num.startSpeed) * (1 - 1 / 2 ^ 53) ^ 1002 :=
    mul_le_mul_of_nonneg_right (mul_le_mul_of_nonneg_left hDl (by norm_num))
      (pow_nonneg hlo0.le _)
  have h4 : num.length < 1001 * (num.length / 1000 * ((1 - 1 / 2 ^ 53) / (1 + 1 / 2 ^ 53))) *
      (1 - 1 / 2 ^ 53) ^ 1002 := by
    have hnum : (1 : ℚ) < (1001 : ℚ) / 1000 * ((1 - 1 / 2 ^ 53) / (1 + 1 / 2 ^ 53)) *
        (1 - 1 / 2 ^ 53) ^ 1002 := by norm_num
    calc num.length = num.length * 1 := (mul_one _).symm
      _ < num.length * ((1001 : ℚ) / 1000 * ((1 - 1 / 2 ^ 53) / (1 + 1 / 2 ^ 53)) *
            (1 - 1 / 2 ^ 53) ^ 1002) := mul_lt_mul_of_pos_left hnum hl
      _ = 1001 * (num.length / 1000 * ((1 - 1 / 2 ^ 53) / (1 + 1 / 2 ^ 53))) *
            (1 - 1 / 2 ^ 53) ^ 1002 := by ring
  linarith

/-- With the default time step the rounded loop makes at most `1001` iterations,
and at least `1000` when it ends with the particle off the wall. -/
theorem countF_default_dt (rnd : ℚ → ℚ) (hrnd : ∀ x, |rnd x - x| ≤ |x| / 2 ^ 53)
    (num : consts) (log : ℚ → ℚ) (u : ℚ) (hs : 0 < num.startSpeed) (hl : 0 < num.length)
    (hdt : num.dt = rnd (num.length / rnd (num.startSpeed * 1000))) :
    ∃ N, N ≤ 1001 ∧ IterationCountF rnd num log u N ∧
      (0 < (simStateAtF rnd num log u N).pos → 1000 ≤ N) := by
  have hstop : simGuardF rnd num (simStateAtF rnd num log u 1001) = false := by
    rw [simGuardF_false_iff]
    right
    exact transit_guard_fails rnd hrnd num log u hs hl hdt
  obtain ⟨N, hN, hc⟩ := exists_IterationCountF rnd num log u 1001 hstop
  refine ⟨N, hN, hc, fun hp => ?_⟩
  by_contra hcon
  have hN999 : N ≤ 999 := by omega
  rcases (simGuardF_false_iff rnd num _).mp hc.2 with hw | hw
  · exact absurd hp (not_lt.mpr hw)
  · exact absurd (transit_guard_holds rnd hrnd num log u hs hl hdt N hN999) (not_le.mpr hw)

/-! ## Zero voltage with rounded arithmetic -/

theorem accelF_zero (rnd : ℚ → ℚ) (h0 : rnd 0 = 0) (num : consts) (log : ℚ → ℚ) (r : ℚ) :
    CountAccelerationF rnd num log 0 r = 0 := by
  unfold CountAccelerationF
  rw [mul_zero, h0, zero_div, h0]

/-- At zero voltage, when the start position is representable, only the clock
of the rounded loop moves. -/
theorem simStateAtF_zero_voltage (rnd : ℚ → ℚ) (h0 : rnd 0 = 0) (num : consts) (log : ℚ → ℚ)
    (hsp : rnd num.startPosition = num.startPosition) :
    ∀ i : Nat, simStateAtF rnd num log 0 i =
      { a := 0, speedOnYAxis := 0, time := clockF rnd num.dt i, pos := num.startPosition } := by
  intro i
  induction i with
  | zero =>
    show simInitF rnd num log 0 = _
    unfold simInitF
    rw [accelF_zero rnd h0]
    rfl
  | succ i ih =>
    rw [simStateAtF_succ, ih, clockF_succ]
    unfold simBodyF
    simp only [neg_zero, zero_mul, h0, zero_div, sub_zero, add_zero, hsp, accelF_zero rnd h0,
      ite_self]

theorem unitF_clock_1000 :
    unitF.length < fl64 (clockF fl64 unitF.dt 1000 * unitF.startSpeed) := by decide!

theorem unitF_startPosition : unitF.startPosition = 1 / 2 := by decide!

/-- Counterexample to C10.  On the input `1 2 1 1` (so `startSpeed = 1 > 0`,
`length = 1 > 0`, `dt` the rounded `length / (startSpeed * 1000)`) the
`float64` loop at `0` volts makes exactly `1000` iterations and returns the
position `0.5 > 0`: fuel `1000` suffices, where the claim has `1001` iterations. -/
theorem step_count_counterexample :
    0 < unitF.startSpeed ∧ 0 < unitF.length ∧
    unitF.dt = fl64 (unitF.length / fl64 (unitF.startSpeed * 1000)) ∧
    IterationCountF fl64 unitF logF 0 1000 ∧
    SimulationF fl64 unitF logF 0 1000 = some (1 / 2) ∧ (0 : ℚ) < 1 / 2 := by
  have hs : 0 < unitF.startSpeed := by decide!
  have hl : 0 < unitF.length := by decide!
  have hsp : fl64 unitF.startPosition = unitF.startPosition := by decide!
  have hstate := simStateAtF_zero_voltage fl64 fl64_zero unitF logF hsp
  have hpos : ∀ i, (simStateAtF fl64 unitF logF 0 i).pos = 1 / 2 := by
    intro i
    rw [hstate i]
    exact unitF_startPosition
  have hstop : simGuardF fl64 unitF (simStateAtF fl64 unitF logF 0 1000) = false := by
    rw [simGuardF_false_iff, simStateAtF_time]
    exact Or.inr unitF_clock_1000
  obtain ⟨N, hN, hc⟩ := exists_IterationCountF fl64 unitF logF 0 1000 hstop
  obtain ⟨M, _, hcM, hM⟩ := countF_default_dt fl64 fl64_error unitF logF 0 hs hl rfl
  have hNM : N = M := IterationCountF_unique fl64 unitF logF 0 N M hc hcM
  have hposM : 0 < (simStateAtF fl64 unitF logF 0 M).pos := by
    rw [hpos M]
    norm_num
  have hN1000 : N = 1000 := by
    have := hM hposM
    omega
  rw [hN1000] at hc
  refine ⟨hs, hl, rfl, hc, ?_, by norm_num⟩
  rw [SimulationF_eq_some_iff]
  exact ⟨1000, le_refl _, hc, (hpos 1000).symm⟩

/-- C10, amended.  Step count under the default time step: for `startSpeed > 0`,
`length > 0` and `dt` computed as `length / (startSpeed * 1000)` with every
operation rounded with relative error at most `2 ^ (-53)` (as `float64` does
when nothing overflows or underflows), for every voltage the loops of
`Simulation` and `SimulationForGraphics` stop after `N ≤ 1001` iterations (fuel
`1001` suffices, and `N` samples are recorded), and `N` is `1000` or `1001`
whenever the returned position is `> 0`. -/
theorem step_count_default_dt (rnd : ℚ → ℚ) (hrnd : ∀ x, |rnd x - x| ≤ |x| / 2 ^ 53)
    (num : consts) (log : ℚ → ℚ) (u : ℚ) (hs : 0 < num.startSpeed) (hl : 0 < num.length)
    (hdt : num.dt = rnd (num.length / rnd (num.startSpeed * 1000))) :
    ∃ N p g, N ≤ 1001 ∧ IterationCountF rnd num log u N ∧
      SimulationF rnd num log u 1001 = some p ∧
      SimulationForGraphicsF rnd num log u 1001 = some g ∧ g.yVals.length = N ∧
      g.tVals.length = N ∧ (0 < p → 1000 ≤ N) := by
  obtain ⟨N, hN, hc, hge⟩ := countF_default_dt rnd hrnd num log u hs hl hdt
  obtain ⟨_, h2, h3, _, _⟩ := samplesF_length rnd num log u N
  exact ⟨N, (simStateAtF rnd num log u N).pos, samplesF rnd num log u N, hN, hc,
    (SimulationF_eq_some_iff rnd num log u 1001 _).mpr ⟨N, hN, hc, rfl⟩,
    SimulationForGraphicsF_of_count rnd num log u 1001 N hN hc, h3, h2, hge⟩

/-- Witness of C10 (amended): `float64` rounding on the scenario input, at `0` volts. -/
theorem step_count_default_dt_witness :
    ∃ N p g, N ≤ 1001 ∧ IterationCountF fl64 scenarioF logF 0 N ∧
      SimulationF fl64 scenarioF logF 0 1001 = some p ∧
      SimulationForGraphicsF fl64 scenarioF logF 0 1001 = some g ∧ g.yVals.length = N ∧
      g.tVals.length = N ∧ (0 < p → 1000 ≤ N) :=
  step_count_default_dt fl64 fl64_error scenarioF logF 0 (by decide!) (by decide!) rfl

/-- Counterexample to C8.  On the scenario input at `1000` volts the `float64`
program records `8` samples; the recorded time of sample `7` is the clock after
seven rounded additions of `dt`, which is neither `7 * dt` nor the rounded
product `7 * dt`. -/
theorem recorded_clock_counterexample :
    (SimulationF fl64 scenarioF logF 1000 1001).isSome = true ∧
    (SimulationForGraphicsF fl64 scenarioF logF 1000 1001).map
        (fun g => (g.tVals.length, g.tVals[7]?)) =
      some (8, some (6769984589841923 / 9671406556917033397649408)) ∧
    (6769984589841923 / 9671406556917033397649408 : ℚ) ≠ 7 * scenarioF.dt ∧
    (6769984589841923 / 9671406556917033397649408 : ℚ) ≠ fl64 (7 * scenarioF.dt) := by
  refine ⟨by decide!, by decide!, by decide!, by decide!⟩

/-- C8, amended.  Recording mode runs the same stepping as scalar mode, for any
rounding of the arithmetic that keeps `0`: when `Simulation(u)` returns `p`
after `N` loop iterations, `SimulationForGraphics(u)` returns five sequences of
the common length `N`; sample `i` is the state `Simulation(u)` holds before its
`(i+1)`-th update, its time being the loop's clock (`dt` added `i` times, each
sum rounded) and its lateral displacement the rounded `vy * t`; sample 0 is
`(0, startPosition, 0, acceleration(u, startPosition + innerRadius), 0)`; and
one more step applied to the last sample yields the position `p`. -/
theorem recording_matches_simulation (rnd : ℚ → ℚ) (h0 : rnd 0 = 0) (num : consts)
    (log : ℚ → ℚ) (u : ℚ) (fuel : Nat) (p : ℚ)
    (h : SimulationF rnd num log u fuel = some p) :
    ∃ N g, N ≤ fuel ∧ IterationCountF rnd num log u N ∧
      p = (simStateAtF rnd num log u N).pos ∧
      SimulationForGraphicsF rnd num log u fuel = some g ∧
      g.xVals.length = N ∧ g.tVals.length = N ∧ g.yVals.length = N ∧
      g.aVals.length = N ∧ g.vVals.length = N ∧
      g = samplesF rnd num log u N ∧
      g.tVals = (List.range N).map (clockF rnd num.dt) ∧
      (0 < N → g.tVals.head? = some 0 ∧ g.yVals.head? = some num.startPosition ∧
        g.vVals.head? = some 0 ∧
        g.aVals.head? = some (CountAccelerationF rnd num log u
          (rnd (num.startPosition + num.innerRadius))) ∧
        g.xVals.head? = some 0) ∧
      ∀ a v t y, g.aVals.getLast? = some a → g.vVals.getLast? = some v →
        g.tVals.getLast? = some t → g.yVals.getLast? = some y →
        (simBodyF rnd num log u ⟨a, v, t, y⟩).pos = p := by
  obtain ⟨N, hN, hc, hp⟩ := (SimulationF_eq_some_iff rnd num log u fuel p).mp h
  obtain ⟨h1, h2, h3, h4, h5⟩ := samplesF_length rnd num log u N
  refine ⟨N, samplesF rnd num log u N, hN, hc, hp,
    SimulationForGraphicsF_of_count rnd num log u fuel N hN hc, h1, h2, h3, h4, h5, rfl,
    ?_, ?_, ?_⟩
  · simp only [samplesF]
    apply List.map_congr_left
    intro i _
    exact simStateAtF_time rnd num log u i
  · intro hN0
    obtain ⟨M, rfl⟩ : ∃ M, N = M + 1 := ⟨N - 1, by omega⟩
    simp [samplesF, List.range_succ_eq_map, simStateAtF, simInitF, h0]
  · intro a v t y ha hv ht hy
    cases N with
    | zero => simp [samplesF] at ha
    | succ M =>
      simp only [samplesF, List.range_succ, List.map_append, List.map_cons, List.map_nil,
        List.getLast?_concat, Option.some.injEq] at ha hv ht hy
      rw [hp, simStateAtF_succ, ← ha, ← hv, ← hy]
      rfl

/-- Witness of C8 (amended): `float64` rounding on the scenario input at `1000` volts. -/
theorem recording_matches_simulation_witness :
    ∃ N g, N ≤ 1001 ∧ IterationCountF fl64 scenarioF logF 1000 N ∧
      (SimulationF fl64 scenarioF logF 1000 1001).getD 0 =
        (simStateAtF fl64 scenarioF logF 1000 N).pos ∧
      SimulationForGraphicsF fl64 scenarioF logF 1000 1001 = some g ∧
      g.xVals.length = N ∧ g.tVals.length = N ∧ g.yVals.length = N ∧
      g.aVals.length = N ∧ g.vVals.length = N ∧
      g = samplesF fl64 scenarioF logF 1000 N ∧
      g.tVals = (List.range N).map (clockF fl64 scenarioF.dt) ∧
      (0 < N → g.tVals.head? = some 0 ∧ g.yVals.head? = some scenarioF.startPosition ∧
        g.vVals.head? = some 0 ∧
        g.aVals.head? = some (CountAccelerationF fl64 scenarioF logF 1000
          (fl64 (scenarioF.startPosition + scenarioF.innerRadius))) ∧
        g.xVals.head? = some 0) ∧
      ∀ a v t y, g.aVals.getLast? = some a → g.vVals.getLast? = some v →
        g.tVals.getLast? = some t → g.yVals.getLast? = some y →
        (simBodyF fl64 scenarioF logF 1000 ⟨a, v, t, y⟩).pos =
          (SimulationF fl64 scenarioF logF 1000 1001).getD 0 :=
  recording_matches_simulation fl64 fl64_zero scenarioF logF 1000 1001
    ((SimulationF fl64 scenarioF logF 1000 1001).getD 0) (by decide!)

/-- C3, amended.  Zero voltage: for every valid parameter set
(`outerRadius > innerRadius > 0`, `startSpeed > 0`, `length > 0`, `dt > 0`,
`startPosition > 0`), where the logarithm of the radius ratio and the radial
distance of the calls are positive, `Simulation(0.0)` makes at least one
iteration and returns the start position, which is `> 0`. -/
theorem zero_voltage_returns_start (num : consts) (log : ℚ → ℚ)
    (hin : 0 < num.innerRadius) (hout : num.innerRadius < num.outerRadius)
    (hs : 0 < num.startSpeed) (hl : 0 < num.length) (hdt : 0 < num.dt)
    (hp : 0 < num.startPosition) (hlog : ∀ x, 1 < x → 0 < log x) :
    0 < log (num.outerRadius / num.innerRadius) ∧ 0 < num.startPosition + num.innerRadius ∧
    ∃ N p, 0 < N ∧ IterationCount num log 0 N ∧
      Simulation num log 0 (transitSteps num) = some p ∧ p = num.startPosition ∧ 0 < p := by
  refine ⟨logRatio_pos num log hin hout hlog, add_pos hp hin, ?_⟩
  obtain ⟨N, _, hc, h⟩ := Simulation_terminates num log 0 hs hdt
  have hposN : (simStateAt num log 0 N).pos = num.startPosition :=
    (simStateAt_zero_voltage num log N).2.2
  have hN0 : 0 < N := by
    rcases Nat.eq_zero_or_pos N with h0 | h0
    · subst h0
      rcases (simGuard_false_iff num _).mp hc.2 with hw | hw
      · rw [hposN] at hw
        linarith
      · rw [simStateAt_time] at hw
        simp only [Nat.cast_zero, zero_mul] at hw
        linarith
    · exact h0
  exact ⟨N, num.startPosition, hN0, hc, by rw [h, hposN], rfl, hp⟩

/-- Witness of C3 (amended): the scenario parameters of the specification, on
which `Simulation(0.0)` returns `0.005`. -/
theorem zero_voltage_returns_start_witness :
    0 < logApprox (scenario.outerRadius / scenario.innerRadius) ∧
    0 < scenario.startPosition + scenario.innerRadius ∧
    ∃ N p, 0 < N ∧ IterationCount scenario logApprox 0 N ∧
      Simulation scenario logApprox 0 (transitSteps scenario) = some p ∧
      p = scenario.startPosition ∧ 0 < p :=
  zero_voltage_returns_start scenario logApprox validConsts_scenario.2.2.1
    validConsts_scenario.2.2.2.1 validConsts_scenario.2.2.2.2.1
    validConsts_scenario.2.2.2.2.2.1 validConsts_scenario.2.2.2.2.2.2.1
    validConsts_scenario.2.2.2.2.2.2.2 logApprox_pos

/-- With a rounding that is monotone, keeps `0` and keeps positive numbers
positive, the rounded acceleration is non-increasing in `r > 0` for a voltage
`≥ 0` and non-decreasing in the voltage for `r > 0`. -/
theorem accelF_weakly_monotone (rnd : ℚ → ℚ) (hmono : ∀ x y, x ≤ y → rnd x ≤ rnd y)
    (h0 : rnd 0 = 0) (hpos : ∀ x, 0 < x → 0 < rnd x) (num : consts) (log : ℚ → ℚ)
    (hq : 0 < num.eCharge) (hm : 0 < num.eMass)
    (hL : 0 < log (rnd (num.outerRadius / num.innerRadius))) :
    (∀ u r₁ r₂ : ℚ, 0 ≤ u → 0 < r₁ → r₁ ≤ r₂ →
      CountAccelerationF rnd num log u r₂ ≤ CountAccelerationF rnd num log u r₁) ∧
    (∀ r u₁ u₂ : ℚ, 0 < r → u₁ ≤ u₂ →
      CountAccelerationF rnd num log u₁ r ≤ CountAccelerationF rnd num log u₂ r) := by
  have hden : ∀ r : ℚ, 0 < r →
      0 < rnd (rnd (num.eMass * r) * log (rnd (num.outerRadius / num.innerRadius))) :=
    fun r hr => hpos _ (mul_pos (hpos _ (mul_pos hm hr)) hL)
  constructor
  · intro u r₁ r₂ hu hr₁ hr
    unfold CountAccelerationF
    apply hmono
    have hn : 0 ≤ rnd (num.eCharge * u) := by
      have := hmono 0 (num.eCharge * u) (mul_nonneg hq.le hu)
      rwa [h0] at this
    have hd : rnd (rnd (num.eMass * r₁) * log (rnd (num.outerRadius / num.innerRadius))) ≤
        rnd (rnd (num.eMass * r₂) * log (rnd (num.outerRadius / num.innerRadius))) :=
      hmono _ _ (mul_le_mul_of_nonneg_right
        (hmono _ _ (mul_le_mul_of_nonneg_left hr hm.le)) hL.le)
    exact div_le_div_of_nonneg_left hn (hden r₁ hr₁) hd
  · intro r u₁ u₂ hr hu
    unfold CountAccelerationF
    apply hmono
    exact div_le_div_of_nonneg_right (hmono _ _ (mul_le_mul_of_nonneg_left hu hq.le))
      (hden r hr).le

/-- Counterexample to C7.  At the voltage `0` the acceleration is `0` at every
radial distance, so it is not strictly decreasing in `r` (scenario, `r = 1` and
`r = 2`); at the voltage `-1` it increases with `r`; and in `float64` the
function takes equal values at neighbouring arguments, at the neighbouring
radii `1.25` and `1.25 + 2^-52` (voltage `1`) and at the neighbouring voltages
`1.5 + 3 * 2^-52` and `1.5 + 4 * 2^-52` (radius `2`), so it is strictly
monotone in neither argument. -/
theorem acceleration_decreasing_counterexample :
    0 < scenario.eCharge ∧ 0 < scenario.eMass ∧ 0 < scenario.innerRadius ∧
    scenario.innerRadius < scenario.outerRadius ∧ (0 : ℚ) < 1 ∧ (1 : ℚ) < 2 ∧
    ¬ (CountAccelerationAtDistanceFromAxis scenario logApprox 0 2 <
        CountAccelerationAtDistanceFromAxis scenario logApprox 0 1) ∧
    CountAccelerationAtDistanceFromAxis twoStep logApprox (-1) 1 <
      CountAccelerationAtDistanceFromAxis twoStep logApprox (-1) 2 ∧
    CountAccelerationF fl64 twoStep logF 1 (5 / 4) =
      CountAccelerationF fl64 twoStep logF 1 (5 / 4 + 1 / 2 ^ 52) ∧
    CountAccelerationF fl64 twoStep logF (3 / 2 + 3 / 2 ^ 52) 2 =
      CountAccelerationF fl64 twoStep logF (3 / 2 + 4 / 2 ^ 52) 2 := by
  obtain ⟨hq, hm, hin, hout, _⟩ := validConsts_scenario
  refine ⟨hq, hm, hin, hout, by norm_num, by norm_num, ?_, by decide!, by decide!,
    by decide!⟩
  rw [accel_zero, accel_zero]
  exact lt_irrefl 0

/-- C7, amended.  Monotonicity of acceleration: with `eCharge > 0`, `eMass > 0`
and `outerRadius > innerRadius > 0`, for every fixed voltage `≥ 0`
`CountAccelerationAtDistanceFromAxis(voltage, r)` is non-increasing in `r` on
`r > 0`, and for every fixed `r > 0` it is non-decreasing in the voltage; the
same holds when every operation is rounded by a monotone rounding that keeps
`0` and the sign of positive numbers. -/
theorem acceleration_weakly_monotone (num : consts) (log : ℚ → ℚ) (hq : 0 < num.eCharge)
    (hm : 0 < num.eMass) (hin : 0 < num.innerRadius) (hout : num.innerRadius < num.outerRadius)
    (hlog : ∀ x, 1 < x → 0 < log x) :
    (∀ u r₁ r₂ : ℚ, 0 ≤ u → 0 < r₁ → r₁ ≤ r₂ →
      CountAccelerationAtDistanceFromAxis num log u r₂ ≤
        CountAccelerationAtDistanceFromAxis num log u r₁) ∧
    (∀ r u₁ u₂ : ℚ, 0 < r → u₁ ≤ u₂ →
      CountAccelerationAtDistanceFromAxis num log u₁ r ≤
        CountAccelerationAtDistanceFromAxis num log u₂ r) ∧
    ∀ rnd : ℚ → ℚ, (∀ x y, x ≤ y → rnd x ≤ rnd y) → rnd 0 = 0 → (∀ x, 0 < x → 0 < rnd x) →
      0 < log (rnd (num.outerRadius / num.innerRadius)) →
      (∀ u r₁ r₂ : ℚ, 0 ≤ u → 0 < r₁ → r₁ ≤ r₂ →
        CountAccelerationF rnd num log u r₂ ≤ CountAccelerationF rnd num log u r₁) ∧
      (∀ r u₁ u₂ : ℚ, 0 < r → u₁ ≤ u₂ →
        CountAccelerationF rnd num log u₁ r ≤ CountAccelerationF rnd num log u₂ r) := by
  have hL := logRatio_pos num log hin hout hlog
  have hid := accelF_weakly_monotone id (fun _ _ h => h) rfl (fun _ h => h) num log hq hm hL
  exact ⟨hid.1, hid.2, fun rnd hmono h0 hpos hLF =>
    accelF_weakly_monotone rnd hmono h0 hpos num log hq hm hLF⟩

/-- Witness of C7 (amended): the scenario parameters. -/
theorem acceleration_weakly_monotone_witness :
    (∀ u r₁ r₂ : ℚ, 0 ≤ u → 0 < r₁ → r₁ ≤ r₂ →
      CountAccelerationAtDistanceFromAxis scenario logApprox u r₂ ≤
        CountAccelerationAtDistanceFromAxis scenario logApprox u r₁) ∧
    (∀ r u₁ u₂ : ℚ, 0 < r → u₁ ≤ u₂ →
      CountAccelerationAtDistanceFromAxis scenario logApprox u₁ r ≤
        CountAccelerationAtDistanceFromAxis scenario logApprox u₂ r) ∧
    ∀ rnd : ℚ → ℚ, (∀ x y, x ≤ y → rnd x ≤ rnd y) → rnd 0 = 0 → (∀ x, 0 < x → 0 < rnd x) →
      0 < logApprox (rnd (scenario.outerRadius / scenario.innerRadius)) →
      (∀ u r₁ r₂ : ℚ, 0 ≤ u → 0 < r₁ → r₁ ≤ r₂ →
        CountAccelerationF rnd scenario logApprox u r₂ ≤
          CountAccelerationF rnd scenario logApprox u r₁) ∧
      (∀ r u₁ u₂ : ℚ, 0 < r → u₁ ≤ u₂ →
        CountAccelerationF rnd scenario logApprox u₁ r ≤
          CountAccelerationF rnd scenario logApprox u₂ r) :=
  acceleration_weakly_monotone scenario logApprox validConsts_scenario.1
    validConsts_scenario.2.1 validConsts_scenario.2.2.1 validConsts_scenario.2.2.2.1
    logApprox_pos

end PhysicsModel
